import Mathlib

/-!
Verification of the codex compiler (`tools/compile_codex.py` and
`tools/util_markdown_extract.py`).

The compiler manipulates JSON values (Python dicts/lists/str/int/bool/None).
We embed them as the inductive `JVal`; Python dicts become insertion-ordered
association lists, and Python strings become lists of Unicode code points.
Fallible Python code (AttributeError/TypeError on ill-shaped values, the
ValueError raised by schema validation) is modelled with `Except Err`.

`validate_node` is modelled on its fallback path (`ensure_schema_minimum`),
i.e. with the optional `jsonschema` dependency unavailable; the full-schema
path reads `schemas/node.schema.json`, a data file that is not part of the
sources under verification.

The ambient state a run reads — the source tree, the `GITHUB_SHA`
environment variable and the wall clock — is passed explicitly (`Tree`,
`Option (List Nat)`, `Clock`).  `json.loads`, used on markdown fence bodies,
is passed as an explicit function parameter `loads`; the node/card/token
files are modelled post-parse as `Option JVal` (`none` = parse failure),
matching `load_json`.
-/

set_option maxHeartbeats 1000000
set_option maxRecDepth 100000

/-- JSON values as handled by the compiler.  Objects are insertion-ordered
association lists (Python dicts), strings are lists of code points. -/
inductive JVal where
  | null : JVal
  | bool (b : Bool) : JVal
  | num (n : Int) : JVal
  | str (s : List Nat) : JVal
  | arr (xs : List JVal) : JVal
  | obj (fields : List (List Nat × JVal)) : JVal

mutual

/-- Structural (syntactic) equality test for `JVal`. -/
def jeq : JVal → JVal → Bool
  | .null, .null => true
  | .bool a, .bool b => a == b
  | .num a, .num b => a == b
  | .str a, .str b => a == b
  | .arr a, .arr b => jeqList a b
  | .obj a, .obj b => jeqFields a b
  | _, _ => false

def jeqList : List JVal → List JVal → Bool
  | [], [] => true
  | a :: as, b :: bs => jeq a b && jeqList as bs
  | _, _ => false

def jeqFields : List (List Nat × JVal) → List (List Nat × JVal) → Bool
  | [], [] => true
  | (k, v) :: as, (k', v') :: bs => k == k' && jeq v v' && jeqFields as bs
  | _, _ => false

end

/-- Structural induction adapted to the nested inductive `JVal`. -/
def JVal.indOn {P : JVal → Prop}
    (hnull : P .null) (hbool : ∀ b, P (.bool b)) (hnum : ∀ n, P (.num n))
    (hstr : ∀ s, P (.str s))
    (harr : ∀ xs, (∀ x ∈ xs, P x) → P (.arr xs))
    (hobj : ∀ fs, (∀ kv ∈ fs, P kv.2) → P (.obj fs)) : ∀ v, P v
  | .null => hnull
  | .bool b => hbool b
  | .num n => hnum n
  | .str s => hstr s
  | .arr xs => harr xs (fun x _ =>
      JVal.indOn hnull hbool hnum hstr harr hobj x)
  | .obj fs => hobj fs (fun kv _ =>
      JVal.indOn hnull hbool hnum hstr harr hobj kv.2)
decreasing_by
  · have := List.sizeOf_lt_of_mem (by assumption : x ∈ xs)
    simp only [JVal.arr.sizeOf_spec]
    omega
  · have h1 := List.sizeOf_lt_of_mem (by assumption : kv ∈ fs)
    have h2 : sizeOf kv.2 < sizeOf kv := by
      obtain ⟨k, v⟩ := kv
      simp
    simp only [JVal.obj.sizeOf_spec]
    omega

/-- `jeq` decides propositional equality (proof used to build `DecidableEq`). -/
def jeq_spec : ∀ a b, jeq a b = true ↔ a = b := by
  intro a
  induction a using JVal.indOn with
  | hnull => intro b; cases b <;> simp [jeq]
  | hbool x => intro b; cases b <;> simp [jeq]
  | hnum x => intro b; cases b <;> simp [jeq]
  | hstr x => intro b; cases b <;> simp [jeq]
  | harr xs ih =>
    intro b
    cases b <;> simp only [jeq] <;> try simp
    case arr ys =>
      induction xs generalizing ys with
      | nil => cases ys <;> simp [jeqList]
      | cons x xs ihl =>
        cases ys with
        | nil => simp [jeqList]
        | cons y ys =>
          simp only [jeqList, Bool.and_eq_true]
          rw [ih x (by simp), ihl (fun z hz => ih z (by simp [hz])) ys]
          simp
  | hobj fs ih =>
    intro b
    cases b <;> simp only [jeq] <;> try simp
    case obj gs =>
      induction fs generalizing gs with
      | nil => cases gs <;> simp [jeqFields]
      | cons kv fs ihl =>
        obtain ⟨k, v⟩ := kv
        cases gs with
        | nil => simp [jeqFields]
        | cons kv' gs =>
          obtain ⟨k', v'⟩ := kv'
          simp only [jeqFields, Bool.and_eq_true]
          rw [ih ⟨k, v⟩ (by simp)]
          rw [ihl (fun z hz => ih z (by simp [hz])) gs]
          simp [beq_iff_eq]

instance : DecidableEq JVal := fun a b =>
  decidable_of_iff (jeq a b = true) (jeq_spec a b)

deriving instance DecidableEq for Except

/-- Code points of a string literal. -/
def bs (s : String) : List Nat := s.data.map Char.toNat

/-! ### Python dict primitives (on the field lists of `JVal.obj`) -/

/-- `d[k]` lookup / membership probe: first (in a dict: only) binding of `k`. -/
def getKey? : List (List Nat × JVal) → List Nat → Option JVal
  | [], _ => none
  | (k', v) :: rest, k => if k' = k then some v else getKey? rest k

/-- `k in d`. -/
def hasKey (fs : List (List Nat × JVal)) (k : List Nat) : Bool :=
  (getKey? fs k).isSome

/-- `d[k] = v`: replace in place if the key exists, else append. -/
def setKey : List (List Nat × JVal) → List Nat → JVal → List (List Nat × JVal)
  | [], k, v => [(k, v)]
  | (k', v') :: rest, k, v =>
    if k' = k then (k', v) :: rest else (k', v') :: setKey rest k v

/-- `d.pop(k, None)`: drop the binding of `k` if present. -/
def eraseKey (k : List Nat) : List (List Nat × JVal) → List (List Nat × JVal)
  | [] => []
  | (k', v) :: rest => if k' = k then rest else (k', v) :: eraseKey k rest

/-- `d.setdefault(k, dflt)` as far as the dict is concerned: the dict after
the call (the looked-up value is read with `getKey?` afterwards). -/
def ensureKey (fs : List (List Nat × JVal)) (k : List Nat) (dflt : JVal) :
    List (List Nat × JVal) :=
  if hasKey fs k then fs else fs ++ [(k, dflt)]

/-- Python truthiness of a JSON value. -/
def truthy : JVal → Bool
  | .null => false
  | .bool b => b
  | .num n => n != 0
  | .str s => !s.isEmpty
  | .arr xs => !xs.isEmpty
  | .obj fs => !fs.isEmpty

/-! ### Sorting (Python `sorted`, and `sort_keys=True` serialization)

Python string comparison is lexicographic on code points; `sorted` is a
stable sort.  We model it with a stable insertion sort. -/

/-- Lexicographic `≤` on code-point lists (Python string `<=`). -/
def leStr : List Nat → List Nat → Bool
  | [], _ => true
  | _ :: _, [] => false
  | a :: as, b :: bn => decide (a < b) || (a == b && leStr as bn)

/-- Lexicographic `<` on code-point lists (Python string `<`). -/
def ltStr : List Nat → List Nat → Bool
  | [], [] => false
  | [], _ :: _ => true
  | _ :: _, [] => false
  | a :: as, b :: bn => decide (a < b) || (a == b && ltStr as bn)

/-- Insert into a (key-)sorted list, keeping stability. -/
def insertByKey {α : Type} (key : α → List Nat) (x : α) : List α → List α
  | [] => [x]
  | y :: ys => if leStr (key x) (key y) then x :: y :: ys else y :: insertByKey key x ys

/-- Stable sort by a string key (model of Python `sorted(..., key=...)`). -/
def sortByKey {α : Type} (key : α → List Nat) (l : List α) : List α :=
  l.foldr (insertByKey key) []

mutual

/-- Key-sorted normal form: recursively sorts every object's fields by key.
Two duplicate-key-free values are equal as Python values (`==`, which
compares dicts by key set and pointwise values, ignoring insertion order)
iff their normal forms are syntactically equal. -/
def normJ : JVal → JVal
  | .null => .null
  | .bool b => .bool b
  | .num n => .num n
  | .str s => .str s
  | .arr xs => .arr (normJList xs)
  | .obj fs => .obj (sortByKey Prod.fst (normJFields fs))

def normJList : List JVal → List JVal
  | [] => []
  | x :: xs => normJ x :: normJList xs

def normJFields : List (List Nat × JVal) → List (List Nat × JVal)
  | [] => []
  | (k, v) :: fs => (k, normJ v) :: normJFields fs

end

/-- Model of Python `==` between JSON values (dict comparison is
insertion-order-insensitive; faithful on values without duplicate keys,
which is every value a Python dict can hold). -/
def pyEq (a b : JVal) : Bool := jeq (normJ a) (normJ b)

/-! ### Serialization (`json.dumps`)

`append_only_merge` hashes `json.dumps(incoming, sort_keys=True)` (default
separators `", "`/`": "`, `ensure_ascii=True`); `write_json` serializes with
`ensure_ascii=False, indent=2`.  Both are modelled below. -/

/-- Lowercase hex digit character. -/
def hexDigitChar (n : Nat) : Nat := if n < 10 then 48 + n else 87 + n

/-- `\uXXXX` escape for a code unit below `0x10000`. -/
def uEsc (c : Nat) : List Nat :=
  [92, 117, hexDigitChar ((c / 4096) % 16), hexDigitChar ((c / 256) % 16),
   hexDigitChar ((c / 16) % 16), hexDigitChar (c % 16)]

/-- Escape of one character with `ensure_ascii=True` (characters outside
`0x20`–`0x7e` escaped; astral characters as surrogate pairs). -/
def escAChar (c : Nat) : List Nat :=
  if c = 34 then [92, 34]
  else if c = 92 then [92, 92]
  else if c = 8 then [92, 98]
  else if c = 9 then [92, 116]
  else if c = 10 then [92, 110]
  else if c = 12 then [92, 102]
  else if c = 13 then [92, 114]
  else if c < 32 then uEsc c
  else if c ≤ 126 then [c]
  else if c < 65536 then uEsc c
  else uEsc (55296 + (c - 65536) / 1024) ++ uEsc (56320 + (c - 65536) % 1024)

/-- Escape of one character with `ensure_ascii=False` (only `"`, `\` and
control characters escaped). -/
def escChar (c : Nat) : List Nat :=
  if c = 34 then [92, 34]
  else if c = 92 then [92, 92]
  else if c = 8 then [92, 98]
  else if c = 9 then [92, 116]
  else if c = 10 then [92, 110]
  else if c = 12 then [92, 102]
  else if c = 13 then [92, 114]
  else if c < 32 then uEsc c
  else [c]

def escA (s : List Nat) : List Nat := (s.map escAChar).flatten

def esc (s : List Nat) : List Nat := (s.map escChar).flatten

/-- Decimal digits of `n` (most significant first), empty for `0`. -/
def natDigitsAux : Nat → Nat → List Nat
  | 0, _ => []
  | _ + 1, 0 => []
  | fuel + 1, n => natDigitsAux fuel (n / 10) ++ [48 + n % 10]

/-- Decimal rendering of a natural number. -/
def natStr (n : Nat) : List Nat := if n = 0 then [48] else natDigitsAux n n

/-- Decimal rendering of a Python int. -/
def intStr : Int → List Nat
  | .ofNat n => natStr n
  | .negSucc m => 45 :: natStr (m + 1)

mutual

/-- Compact serializer: separators `", "` and `": "`, `ensure_ascii=True`,
fields in the order they are listed.  `json.dumps(v, sort_keys=True)` is
`render (norm v)` — see `dumps`. -/
def render : JVal → List Nat
  | .null => bs "null"
  | .bool b => if b then bs "true" else bs "false"
  | .num n => intStr n
  | .str s => [34] ++ escA s ++ [34]
  | .arr xs => [91] ++ renderList xs ++ [93]
  | .obj fs => [123] ++ renderFields fs ++ [125]

def renderList : List JVal → List Nat
  | [] => []
  | [x] => render x
  | x :: xs => render x ++ bs ", " ++ renderList xs

def renderFields : List (List Nat × JVal) → List Nat
  | [] => []
  | [(k, v)] => [34] ++ escA k ++ [34] ++ bs ": " ++ render v
  | (k, v) :: fs =>
    [34] ++ escA k ++ [34] ++ bs ": " ++ render v ++ bs ", " ++ renderFields fs

end

/-- `json.dumps(v, sort_keys=True)` (the argument of `sha256_bytes` in
`append_only_merge`): keys sorted lexicographically at every level, then
rendered with the default separators.  The output is pure ASCII
(`ensure_ascii=True`), so its UTF-8 bytes are the code points themselves. -/
def dumps (v : JVal) : List Nat := render (normJ v)

def indentOf (lvl : Nat) : List Nat := List.replicate (2 * lvl) 32

mutual

/-- `json.dump(v, ensure_ascii=False, indent=2)` (the writer in
`write_json`): fields in insertion order, two-space indentation.  Nonempty
containers put each entry on its own line, separated by `",\n" + indent`. -/
def renderI : Nat → JVal → List Nat
  | _, .null => bs "null"
  | _, .bool b => if b then bs "true" else bs "false"
  | _, .num n => intStr n
  | _, .str s => [34] ++ esc s ++ [34]
  | lvl, .arr xs =>
    if xs.isEmpty then bs "[]"
    else [91, 10] ++ indentOf (lvl + 1) ++
      List.intercalate ([44, 10] ++ indentOf (lvl + 1)) (renderIList (lvl + 1) xs) ++
      [10] ++ indentOf lvl ++ [93]
  | lvl, .obj fs =>
    if fs.isEmpty then bs "{}"
    else [123, 10] ++ indentOf (lvl + 1) ++
      List.intercalate ([44, 10] ++ indentOf (lvl + 1)) (renderIFields (lvl + 1) fs) ++
      [10] ++ indentOf lvl ++ [125]

def renderIList : Nat → List JVal → List (List Nat)
  | _, [] => []
  | lvl, x :: xs => renderI lvl x :: renderIList lvl xs

def renderIFields : Nat → List (List Nat × JVal) → List (List Nat)
  | _, [] => []
  | lvl, (k, v) :: fs =>
    ([34] ++ esc k ++ [34] ++ bs ": " ++ renderI lvl v) :: renderIFields lvl fs

end

/-- Serialized bytes written by `write_json` (UTF-8 of the `indent=2`
rendering; inputs in this development are confined to code points whose
UTF-8 length questions never arise in the claims, and byte identity of two
equal renderings is what the determinism claim needs). -/
def dumpIndent2 (v : JVal) : List Nat := renderI 0 v

/-! ### SHA-256 (`hashlib.sha256`)

Straight implementation of FIPS 180-4 over byte lists, with 32-bit words as
naturals reduced mod `2^32`. -/

def M32 : Nat := 4294967296

def rotr32 (n x : Nat) : Nat := ((x >>> n) ||| (x <<< (32 - n))) % M32

def bsig0 (x : Nat) : Nat := (rotr32 2 x) ^^^ (rotr32 13 x) ^^^ (rotr32 22 x)
def bsig1 (x : Nat) : Nat := (rotr32 6 x) ^^^ (rotr32 11 x) ^^^ (rotr32 25 x)
def ssig0 (x : Nat) : Nat := (rotr32 7 x) ^^^ (rotr32 18 x) ^^^ (x >>> 3)
def ssig1 (x : Nat) : Nat := (rotr32 17 x) ^^^ (rotr32 19 x) ^^^ (x >>> 10)

def shaK : List Nat :=
  [1116352408, 1899447441, 3049323471, 3921009573, 961987163, 1508970993,
   2453635748, 2870763221, 3624381080, 310598401, 607225278, 1426881987,
   1925078388, 2162078206, 2614888103, 3248222580, 3835390401, 4022224774,
   264347078, 604807628, 770255983, 1249150122, 1555081692, 1996064986,
   2554220882, 2821834349, 2952996808, 3210313671, 3336571891, 3584528711,
   113926993, 338241895, 666307205, 773529912, 1294757372, 1396182291,
   1695183700, 1986661051, 2177026350, 2456956037, 2730485921, 2820302411,
   3259730800, 3345764771, 3516065817, 3600352804, 4094571909, 275423344,
   430227734, 506948616, 659060556, 883997877, 958139571, 1322822218,
   1537002063, 1747873779, 1955562222, 2024104815, 2227730452, 2361852424,
   2428436474, 2756734187, 3204031479, 3329325298]

def shaH0 : List Nat :=
  [1779033703, 3144134277, 1013904242, 2773480762,
   1359893119, 2600822924, 528734635, 1541459225]

/-- Big-endian 64-bit length field. -/
def be64 (n : Nat) : List Nat :=
  [(n >>> 56) % 256, (n >>> 48) % 256, (n >>> 40) % 256, (n >>> 32) % 256,
   (n >>> 24) % 256, (n >>> 16) % 256, (n >>> 8) % 256, n % 256]

/-- Merkle–Damgård padding to a multiple of 64 bytes. -/
def shaPad (msg : List Nat) : List Nat :=
  msg ++ [128] ++ List.replicate ((119 - (msg.length % 64)) % 64) 0 ++
    be64 (8 * msg.length)

/-- Big-endian 32-bit words of a block. -/
def toWords : List Nat → List Nat
  | b0 :: b1 :: b2 :: b3 :: rest =>
    (((b0 * 256 + b1) * 256 + b2) * 256 + b3) :: toWords rest
  | _ => []

/-- Message-schedule extension (run with `k = 48`). -/
def shaExtend : Nat → List Nat → List Nat
  | 0, w => w
  | k + 1, w =>
    let t := w.length
    shaExtend k (w ++ [(ssig1 (w.getD (t - 2) 0) + w.getD (t - 7) 0 +
      ssig0 (w.getD (t - 15) 0) + w.getD (t - 16) 0) % M32])

structure Sha8 where
  a : Nat
  b : Nat
  c : Nat
  d : Nat
  e : Nat
  f : Nat
  g : Nat
  hh : Nat

def shaRound (st : Sha8) (kw : Nat × Nat) : Sha8 :=
  let ch := (st.e &&& st.f) ^^^ ((st.e ^^^ (M32 - 1)) &&& st.g)
  let maj := (st.a &&& st.b) ^^^ (st.a &&& st.c) ^^^ (st.b &&& st.c)
  let t1 := (st.hh + bsig1 st.e + ch + kw.1 + kw.2) % M32
  let t2 := (bsig0 st.a + maj) % M32
  ⟨(t1 + t2) % M32, st.a, st.b, st.c, (st.d + t1) % M32, st.e, st.f, st.g⟩

def shaBlock (hs : List Nat) (block : List Nat) : List Nat :=
  let w := shaExtend 48 (toWords block)
  let i : Sha8 := ⟨hs.getD 0 0, hs.getD 1 0, hs.getD 2 0, hs.getD 3 0,
                   hs.getD 4 0, hs.getD 5 0, hs.getD 6 0, hs.getD 7 0⟩
  let z := (shaK.zip w).foldl shaRound i
  [(hs.getD 0 0 + z.a) % M32, (hs.getD 1 0 + z.b) % M32,
   (hs.getD 2 0 + z.c) % M32, (hs.getD 3 0 + z.d) % M32,
   (hs.getD 4 0 + z.e) % M32, (hs.getD 5 0 + z.f) % M32,
   (hs.getD 6 0 + z.g) % M32, (hs.getD 7 0 + z.hh) % M32]

def toBlocksAux : Nat → List Nat → List (List Nat)
  | 0, _ => []
  | k + 1, l => l.take 64 :: toBlocksAux k (l.drop 64)

def toBlocks (l : List Nat) : List (List Nat) := toBlocksAux (l.length / 64) l

/-- SHA-256 state after absorbing all padded blocks of `msg`. -/
def sha256words (msg : List Nat) : List Nat :=
  (toBlocks (shaPad msg)).foldl shaBlock shaH0

def hex8 (x : Nat) : List Nat :=
  [hexDigitChar ((x >>> 28) % 16), hexDigitChar ((x >>> 24) % 16),
   hexDigitChar ((x >>> 20) % 16), hexDigitChar ((x >>> 16) % 16),
   hexDigitChar ((x >>> 12) % 16), hexDigitChar ((x >>> 8) % 16),
   hexDigitChar ((x >>> 4) % 16), hexDigitChar (x % 16)]

/-- `sha256_bytes`: `hashlib.sha256(blob).hexdigest()[:16]`. -/
def sha256_bytes (blob : List Nat) : List Nat :=
  (((sha256words blob).map hex8).flatten).take 16

/-! ### Markdown extraction (`util_markdown_extract.py`)

`FENCE = re.compile(r"```json\s*(\{[\s\S]*?\})\s*```", re.MULTILINE)`.
A match starts at `"```json"`, takes the (greedy) whitespace run, requires
`{`, then the lazy quantifier stops at the first `}` whose tail is
whitespace directly followed by `"```"`; `finditer` resumes after the
closing fence and otherwise advances one character.  `json.loads` is the
explicit `loads` parameter; a block it rejects is skipped (`except: pass`). -/

/-- Unicode white space as matched by Python's `\s` on `str` patterns. -/
def pyWsSet : List Nat :=
  [9, 10, 11, 12, 13, 28, 29, 30, 31, 32, 133, 160, 5760, 8192, 8193, 8194,
   8195, 8196, 8197, 8198, 8199, 8200, 8201, 8202, 8232, 8233, 8239, 8287, 12288]

def isWS (c : Nat) : Bool := pyWsSet.contains c

/-- Matches `\s*` then a literal closing fence; returns the remainder. -/
def fenceTail (s : List Nat) : Option (List Nat) :=
  let t := s.dropWhile isWS
  if (bs "```").isPrefixOf t then some (t.drop 3) else none

/-- The lazy `[\s\S]*?` body: the shortest prefix whose next character is
`}` followed by a valid closing fence.  Returns (body, remainder after the
closing fence). -/
def lazyBody : List Nat → Option (List Nat × List Nat)
  | [] => none
  | c :: rest =>
    if c = 125 then
      match fenceTail rest with
      | some rem => some ([], rem)
      | none =>
        match lazyBody rest with
        | some (cs, rem) => some (c :: cs, rem)
        | none => none
    else
      match lazyBody rest with
      | some (cs, rem) => some (c :: cs, rem)
      | none => none

/-- Attempt a fence match at the head of `s`; returns (group(1), remainder
after the match). -/
def tryFence (s : List Nat) : Option (List Nat × List Nat) :=
  if (bs "```json").isPrefixOf s then
    match (s.drop 7).dropWhile isWS with
    | 123 :: body =>
      match lazyBody body with
      | some (cs, rem) => some (123 :: (cs ++ [125]), rem)
      | none => none
    | _ => none
  else none

/-- Left-to-right non-overlapping scan (`re.finditer`); fuel is the length
of the text, which bounds the number of scan steps. -/
def fenceScan : Nat → List Nat → List (List Nat)
  | 0, _ => []
  | _ + 1, [] => []
  | fuel + 1, c :: rest =>
    match tryFence (c :: rest) with
    | some (grp, rem) => grp :: fenceScan fuel rem
    | none => fenceScan fuel rest

/-- `group(1)` of every `FENCE` match, in order of appearance. -/
def fenceMatches (s : List Nat) : List (List Nat) := fenceScan s.length s

/-- `extract_json_blocks`: parse each fenced block, silently skipping
blocks `loads` rejects. -/
def extract_json_blocks (loads : List Nat → Option JVal) (text : List Nat) :
    List JVal :=
  (fenceMatches text).foldl
    (fun acc g =>
      match loads g with
      | some v => acc ++ [v]
      | none => acc) []

/-! ### Environment and clock -/

/-- `os.getenv('GITHUB_SHA', '')[:12]`. -/
def commitOf (env : Option (List Nat)) : List Nat := (env.getD []).take 12

/-- A frozen UTC wall-clock instant. -/
structure Clock where
  year : Nat
  month : Nat
  day : Nat
  hour : Nat
  minute : Nat
  second : Nat
  micro : Nat
deriving DecidableEq

/-- Zero-padded decimal field. -/
def padNum (w n : Nat) : List Nat :=
  List.replicate (w - (natStr n).length) 48 ++ natStr n

/-- The date-time body of `isoformat()` (a microsecond field only when
nonzero). -/
def isoBase (c : Clock) : List Nat :=
  padNum 4 c.year ++ [45] ++ padNum 2 c.month ++ [45] ++ padNum 2 c.day ++ [84] ++
  padNum 2 c.hour ++ [58] ++ padNum 2 c.minute ++ [58] ++ padNum 2 c.second ++
  (if c.micro = 0 then [] else [46] ++ padNum 6 c.micro)

/-- `datetime.now(timezone.utc).isoformat()`: the body plus the `+00:00`
offset suffix. -/
def isoFmt (c : Clock) : List Nat := isoBase c ++ bs "+00:00"

/-- `str.replace` for a nonempty pattern: all non-overlapping occurrences,
left to right. -/
def pyReplaceAux (pat repl : List Nat) : Nat → List Nat → List Nat
  | 0, s => s
  | _ + 1, [] => []
  | fuel + 1, c :: rest =>
    if pat.isPrefixOf (c :: rest) then
      repl ++ pyReplaceAux pat repl fuel ((c :: rest).drop pat.length)
    else c :: pyReplaceAux pat repl fuel rest

def pyReplace (s pat repl : List Nat) : List Nat := pyReplaceAux pat repl s.length s

/-- The provenance timestamp: `isoformat().replace('+00:00', 'Z')`. -/
def timestampOf (c : Clock) : List Nat := pyReplace (isoFmt c) (bs "+00:00") (bs "Z")

/-! ### The compiler core (`compile_codex.py`) -/

inductive Err where
  | schema (msg : List Nat) : Err
  | typeErr : Err
deriving DecidableEq

def provK : List Nat := bs "provenance"
def srcK : List Nat := bs "sources"
def verK : List Nat := bs "versions"
def idK : List Nat := bs "id"
def hashK : List Nat := bs "_hash"

/-- `d.get(k)` (`None` default); AttributeError on non-dicts. -/
def pyGet (v : JVal) (k : List Nat) : Except Err JVal :=
  match v with
  | .obj fs => .ok ((getKey? fs k).getD .null)
  | _ => .error .typeErr

/-- `d.get(k, dflt)`. -/
def pyGetD (v : JVal) (k : List Nat) (dflt : JVal) : Except Err JVal :=
  match v with
  | .obj fs => .ok ((getKey? fs k).getD dflt)
  | _ => .error .typeErr

/-- The `strip` helper of `nodes_equal`: copy without `provenance` and
`versions`. -/
def stripFields (fs : List (List Nat × JVal)) : List (List Nat × JVal) :=
  eraseKey verK (eraseKey provK fs)

/-- `nodes_equal` on two dicts (Python `==` on the stripped copies). -/
def nodes_equal (left right : List (List Nat × JVal)) : Bool :=
  pyEq (.obj (stripFields left)) (.obj (stripFields right))

/-- Elements contributed by `list.extend(x)`: lists yield their elements,
strings their characters, dicts their keys; other values are not iterable. -/
def iterElems : JVal → Except Err (List JVal)
  | .arr l => .ok l
  | .str s => .ok (s.map (fun ch => .str [ch]))
  | .obj fs => .ok (fs.map (fun kv => .str kv.1))
  | _ => .error .typeErr

/-- `incoming.get('provenance', {}).get('sources', [])`, iterated by
`extend`. -/
def incomingSources (inf : List (List Nat × JVal)) : Except Err (List JVal) :=
  match getKey? inf provK with
  | none => .ok []
  | some (.obj ipf) =>
    match getKey? ipf srcK with
    | none => .ok []
    | some v => iterElems v
  | some _ => .error .typeErr

/-- `any(variant.get('_hash') == incoming_hash for variant in versions)`:
left-to-right with short-circuit, AttributeError on a non-dict variant. -/
def scanHash : List JVal → List Nat → Except Err Bool
  | [], _ => .ok false
  | v :: rest, h =>
    match v with
    | .obj fs =>
      if pyEq ((getKey? fs hashK).getD .null) (.str h) then .ok true
      else scanHash rest h
    | _ => .error .typeErr

/-- `append_only_merge`. -/
def append_only_merge (current incoming : JVal) : Except Err JVal :=
  match current, incoming with
  | .obj cf, .obj inf =>
    if nodes_equal cf inf then
      let cf1 := ensureKey cf provK (.obj [])
      match getKey? cf1 provK with
      | some (.obj pf) =>
        let pf1 := ensureKey pf srcK (.arr [])
        match getKey? pf1 srcK with
        | some (.arr cs) =>
          match incomingSources inf with
          | .error e => .error e
          | .ok is2 =>
            .ok (.obj (setKey cf1 provK (.obj (setKey pf1 srcK (.arr (cs ++ is2))))))
        | some _ => .error .typeErr
        | none => .error .typeErr
      | some _ => .error .typeErr
      | none => .error .typeErr
    else
      let cf1 := ensureKey cf verK (.arr [])
      match getKey? cf1 verK with
      | some (.arr vs) =>
        let h := sha256_bytes (dumps (.obj inf))
        match scanHash vs h with
        | .error e => .error e
        | .ok true => .ok (.obj cf1)
        | .ok false =>
          .ok (.obj (setKey cf1 verK (.arr (vs ++ [.obj (setKey inf hashK (.str h))]))))
      | some _ => .error .typeErr
      | none => .error .typeErr
  | _, _ => .error .typeErr

/-- The provenance entry appended by `normalise_node`. -/
def provEntry (source commit ts : List Nat) : JVal :=
  .obj [(bs "path", .str source), (bs "commit", .str commit),
        (bs "timestamp", .str ts), (bs "compiler", .str (bs "compile_codex.py@v1"))]

/-- `normalise_node(node, source)` under environment `env` and frozen
clock `clock`. -/
def normalise_node (node : JVal) (source : List Nat) (env : Option (List Nat))
    (clock : Clock) : Except Err JVal :=
  match node with
  | .obj fs =>
    let fs1 := ensureKey fs provK (.obj [])
    match getKey? fs1 provK with
    | some (.obj pf) =>
      let pf1 := ensureKey pf srcK (.arr [])
      match getKey? pf1 srcK with
      | some (.arr ss) =>
        .ok (.obj (setKey fs1 provK (.obj (setKey pf1 srcK
          (.arr (ss ++ [provEntry source (commitOf env) (timestampOf clock)]))))))
      | some _ => .error .typeErr
      | none => .error .typeErr
    | some _ => .error .typeErr
    | none => .error .typeErr
  | _ => .error .typeErr

def isDigitCh (c : Nat) : Bool := 48 ≤ c && c ≤ 57

def isArcanaCh (c : Nat) : Bool := (65 ≤ c && c ≤ 90) || isDigitCh c || c == 95 || c == 45

/-- `fullmatch` of `^(C144N-[0-9]{3}|C144N-ARCANA-[A-Z0-9_-]+)$`. -/
def matchId (s : List Nat) : Bool :=
  ((bs "C144N-").isPrefixOf s && (s.drop 6).length == 3 && (s.drop 6).all isDigitCh) ||
  ((bs "C144N-ARCANA-").isPrefixOf s && !(s.drop 13).isEmpty && (s.drop 13).all isArcanaCh)

def schemaMsg (source suffix : List Nat) : List Nat :=
  bs "Schema validation failed for " ++ source ++ bs ": " ++ suffix

/-- `ensure_schema_minimum` (fallback validator). -/
def ensure_schema_minimum (node : JVal) (source : List Nat) : Except Err Unit :=
  match node with
  | .obj fs =>
    match getKey? fs idK with
    | none => .error (.schema (schemaMsg source (bs "missing 'id'")))
    | some (.str s) =>
      if matchId s then .ok ()
      else .error (.schema (schemaMsg source (bs "id does not match pattern")))
    | some _ => .error (.schema (schemaMsg source (bs "id must be a string")))
  | _ => .error .typeErr

/-- `validate_node`, modelled on its fallback path (the `jsonschema`
dependency unavailable, see the header). -/
def validate_node (node : JVal) (source : List Nat) : Except Err Unit :=
  ensure_schema_minimum node source

/-! ### Collection -/

/-- Lookup in the compiled mapping (Python dict keyed by node ids). -/
def mapGet? : List (JVal × JVal) → JVal → Option JVal
  | [], _ => none
  | (k', v) :: rest, k => if pyEq k' k then some v else mapGet? rest k

/-- `compiled[k] = v`: update in place, keeping the stored key. -/
def mapSet : List (JVal × JVal) → JVal → JVal → List (JVal × JVal)
  | [], k, v => [(k, v)]
  | (k', v') :: rest, k, v =>
    if pyEq k' k then (k', v) :: rest else (k', v') :: mapSet rest k v

/-- The shared per-fragment pipeline (both loops of `collect_nodes`):
read `id`, skip falsy ids, annotate, validate, insert or merge. -/
def ingestValue (env : Option (List Nat)) (clock : Clock)
    (compiled : List (JVal × JVal)) (data : JVal) (source : List Nat) :
    Except Err (List (JVal × JVal)) :=
  match pyGet data idK with
  | .error e => .error e
  | .ok idv =>
    if truthy idv = false then .ok compiled
    else
      match normalise_node data source env clock with
      | .error e => .error e
      | .ok node =>
        match validate_node node source with
        | .error e => .error e
        | .ok _ =>
          match mapGet? compiled idv with
          | none => .ok (compiled ++ [(idv, node)])
          | some cur =>
            match append_only_merge cur node with
            | .error e => .error e
            | .ok merged => .ok (mapSet compiled idv merged)

/-- One step of the node-file loop: skip parse failures and falsy data. -/
def ingestNodeFile (env : Option (List Nat)) (clock : Clock)
    (compiled : List (JVal × JVal)) (pf : List Nat × Option JVal) :
    Except Err (List (JVal × JVal)) :=
  match pf.2 with
  | none => .ok compiled
  | some data =>
    if truthy data = false then .ok compiled
    else ingestValue env clock compiled data pf.1

/-- One step of the ledger loop: an absent ledger is skipped, a present one
contributes its extracted blocks in order. -/
def ingestLedger (loads : List Nat → Option JVal) (env : Option (List Nat))
    (clock : Clock) (compiled : List (JVal × JVal))
    (lg : List Nat × Option (List Nat)) : Except Err (List (JVal × JVal)) :=
  match lg.2 with
  | none => .ok compiled
  | some text =>
    (extract_json_blocks loads text).foldlM
      (fun acc block => ingestValue env clock acc block lg.1) compiled

/-- One step of the card loop: parse failures and falsy cards are skipped. -/
def cardStep (cs : List JVal) (pf : List Nat × Option JVal) : List JVal :=
  match pf.2 with
  | some c => if truthy c then cs ++ [c] else cs
  | none => cs

/-- The source tree as the run observes it: the node/card files its globs
return (in arbitrary filesystem order, with `none` for a file `load_json`
rejects), the two fixed ledgers (`none` when absent), and the fixed token
and cosmology files. -/
structure SrcTree where
  nodeFiles : List (List Nat × Option JVal)
  ledgers : List (List Nat × Option (List Nat))
  cardFiles : List (List Nat × Option JVal)
  tokens : Option JVal
  cosmo : Option JVal

structure CollectRes where
  nodes : List (JVal × JVal)
  cards : List JVal
  tokens : Option JVal
  cosmo : Option JVal
deriving DecidableEq

/-- `collect_nodes`: node files in sorted-path order, then the fixed ledger
list, then cards in sorted-path order, then the two pass-through loads. -/
def collect_nodes (loads : List Nat → Option JVal) (env : Option (List Nat))
    (clock : Clock) (t : SrcTree) : Except Err CollectRes :=
  match (sortByKey Prod.fst t.nodeFiles).foldlM (ingestNodeFile env clock) [] with
  | .error e => .error e
  | .ok nodes1 =>
    match t.ledgers.foldlM (ingestLedger loads env clock) nodes1 with
    | .error e => .error e
    | .ok nodes2 =>
      .ok ⟨nodes2, (sortByKey Prod.fst t.cardFiles).foldl cardStep [],
           t.tokens, t.cosmo⟩

/-! ### Artifact writing (`main` + `write_json`) -/

structure Outputs where
  codex : List Nat
  index : List Nat
  cards : Option (List Nat)
  tokens : Option (List Nat)
  cosmo : Option (List Nat)
deriving DecidableEq

/-- `len` on a JSON value (TypeError on numbers, booleans, None). -/
def pyLen : JVal → Except Err Nat
  | .arr l => .ok l.length
  | .str s => .ok s.length
  | .obj fs => .ok fs.length
  | _ => .error .typeErr

/-- `sum(len(node.get('versions', [])) for node in nodes.values())`. -/
def versionsCount (nodes : List (JVal × JVal)) : Except Err Nat :=
  nodes.foldlM (fun acc kv =>
    match pyGetD kv.2 verK (.arr []) with
    | .error e => .error e
    | .ok v =>
      match pyLen v with
      | .error e => .error e
      | .ok n => .ok (acc + n)) 0

/-- `main` up to the bytes written into each artifact (a `none` output is a
file that is not written). -/
def main_run (loads : List Nat → Option JVal) (env : Option (List Nat))
    (clock : Clock) (t : SrcTree) : Except Err Outputs :=
  match collect_nodes loads env clock t with
  | .error e => .error e
  | .ok res =>
    match versionsCount res.nodes with
    | .error e => .error e
    | .ok vt =>
      let meta : JVal := .obj
        [(bs "built_utc", .str (timestampOf clock)),
         (bs "git_commit", .str (commitOf env)),
         (bs "counts", .obj
           [(bs "nodes", .num res.nodes.length),
            (bs "cards", .num res.cards.length),
            (bs "versions_total", .num vt)])]
      .ok { codex := dumpIndent2 (.obj [(bs "nodes", .arr (res.nodes.map Prod.snd))]),
            index := dumpIndent2 meta,
            cards := if res.cards.isEmpty then none
                     else some (dumpIndent2 (.obj [(bs "cards", .arr res.cards)])),
            tokens := match res.tokens with
                      | some tv => if truthy tv then some (dumpIndent2 tv) else none
                      | none => none,
            cosmo := match res.cosmo with
                     | some cv => if truthy cv then some (dumpIndent2 cv) else none
                     | none => none }

/-! ### Readers and shape predicates used in statements -/

def isObj : JVal → Bool
  | .obj _ => true
  | _ => false

/-- The `provenance.sources` list of a node (`[]` when absent/ill-shaped). -/
def sourcesOf (v : JVal) : List JVal :=
  match v with
  | .obj fs =>
    match getKey? fs provK with
    | some (.obj pf) =>
      match getKey? pf srcK with
      | some (.arr l) => l
      | _ => []
    | _ => []
  | _ => []

/-- The `versions` list of a node (`[]` when absent/ill-shaped). -/
def versionsOf (v : JVal) : List JVal :=
  match v with
  | .obj fs =>
    match getKey? fs verK with
    | some (.arr l) => l
    | _ => []
  | _ => []

/-- The `_hash` tag of a versions entry, when it is a dict carrying one. -/
def hashTag : JVal → Option (List Nat)
  | .obj fs =>
    match getKey? fs hashK with
    | some (.str h) => some h
    | _ => none
  | _ => none

/-- The `_hash` tags present in a node's `versions` entries. -/
def hashesOf (v : JVal) : List (List Nat) := (versionsOf v).filterMap hashTag

/-- Top-level keys of a dict value. -/
def topKeys : JVal → List (List Nat)
  | .obj fs => fs.map Prod.fst
  | _ => []

/-- Shape invariant every compiled node satisfies: a dict whose provenance
is a dict carrying a nonempty `sources` list. -/
def nodeShaped (v : JVal) : Bool :=
  match v with
  | .obj fs =>
    match getKey? fs provK with
    | some (.obj pf) =>
      match getKey? pf srcK with
      | some (.arr l) => !l.isEmpty
      | _ => false
    | _ => false
  | _ => false

/-- Well-shaped truthy payload: a dict; provenance absent or a dict whose
`sources`, when present, is a list; `versions` absent or a list of dicts.
Exactly the shapes on which the Python pipeline raises no type error. -/
def goodVal : JVal → Bool
  | .obj fs =>
    (match getKey? fs provK with
     | none => true
     | some (.obj pf) =>
       (match getKey? pf srcK with
        | none => true
        | some (.arr _) => true
        | some _ => false)
     | some _ => false) &&
    (match getKey? fs verK with
     | none => true
     | some (.arr vs) => vs.all isObj
     | some _ => false)
  | _ => false

/-- A compiled node that is both shaped and merge-safe as a current record. -/
def nodeGood (v : JVal) : Bool :=
  nodeShaped v &&
  (match v with
   | .obj fs =>
     (match getKey? fs verK with
      | none => true
      | some (.arr vs) => vs.all isObj
      | some _ => false)
   | _ => false)

/-- Source trees whose truthy node payloads and ledger blocks are well
shaped (the hypothesis under which only schema validation can abort). -/
def goodTree (loads : List Nat → Option JVal) (t : SrcTree) : Bool :=
  t.nodeFiles.all (fun pf =>
    match pf.2 with
    | none => true
    | some d => !truthy d || goodVal d) &&
  t.ledgers.all (fun lg =>
    match lg.2 with
    | none => true
    | some text => (extract_json_blocks loads text).all goodVal)

/-- (versions length, sources length) of the first compiled node. -/
def firstNodeStats (r : Except Err CollectRes) : Option (Nat × Nat) :=
  match r with
  | .ok res =>
    match res.nodes with
    | kv :: _ => some ((versionsOf kv.2).length, (sourcesOf kv.2).length)
    | [] => none
  | .error _ => none

/-- The identifier language as the spec words it: `C144N-` plus exactly
three ASCII digits, or `C144N-ARCANA-` plus one or more characters drawn
from uppercase letters, digits, underscore, hyphen. -/
def specIdShape (s : List Nat) : Prop :=
  (∃ t, s = bs "C144N-" ++ t ∧ t.length = 3 ∧ ∀ c ∈ t, 48 ≤ c ∧ c ≤ 57) ∨
  (∃ u, s = bs "C144N-ARCANA-" ++ u ∧ u ≠ [] ∧
    ∀ c ∈ u, (65 ≤ c ∧ c ≤ 90) ∨ (48 ≤ c ∧ c ≤ 57) ∨ c = 95 ∨ c = 45)

/-! ### Concrete fixtures for witnesses and counterexamples -/

def clockW : Clock := ⟨2026, 10, 12, 3, 4, 5, 0⟩

def loadsNone : List Nat → Option JVal := fun _ => none

def nodeX : JVal := .obj [(bs "id", .str (bs "C144N-001")), (bs "title", .str (bs "Alpha"))]

def nodeY : JVal := .obj [(bs "id", .str (bs "C144N-001")), (bs "title", .str (bs "Beta"))]

def treeXYX : SrcTree :=
  ⟨[(bs "a.json", some nodeX), (bs "b.json", some nodeY), (bs "c.json", some nodeX)],
   [], [], none, none⟩

def treeArrFile : SrcTree := ⟨[(bs "a.json", some (.arr [.num 1]))], [], [], none, none⟩

def treeBadId : SrcTree :=
  ⟨[(bs "a.json", some (.obj [(bs "id", .str (bs "bad-id"))]))], [], [], none, none⟩

def pfW : List (List Nat × JVal) := [(srcK, .arr [.str (bs "s1")])]

def cfW : List (List Nat × JVal) :=
  [(idK, .str (bs "C144N-001")), (provK, .obj pfW),
   (verK, .arr [.obj [(hashK, .str (bs "0123456789abcdef"))]])]

def infW : List (List Nat × JVal) :=
  [(idK, .str (bs "C144N-001")), (provK, .obj [(srcK, .arr [.str (bs "s2")])])]

def cfX : List (List Nat × JVal) := [(idK, .str (bs "C144N-002")), (bs "t", .str (bs "A"))]

def infX : List (List Nat × JVal) := [(idK, .str (bs "C144N-002")), (bs "t", .str (bs "B"))]

def nodeZ : JVal := .obj [(idK, .str (bs "C144N-002")), (bs "title", .str (bs "Gamma"))]

def treeD1 : SrcTree :=
  ⟨[(bs "a.json", some nodeX), (bs "b.json", some nodeZ)], [],
   [(bs "c1.json", some (.num 1)), (bs "c2.json", none)],
   some (.obj [(bs "t", .num 1)]), none⟩

def treeD2 : SrcTree :=
  ⟨[(bs "b.json", some nodeZ), (bs "a.json", some nodeX)], [],
   [(bs "c2.json", none), (bs "c1.json", some (.num 1))],
   some (.obj [(bs "t", .num 1)]), none⟩

/-- First compiled node of a collection result (`null` as fallback). -/
def firstNodeOf (r : Except Err CollectRes) : JVal :=
  match r with
  | .ok res => (res.nodes.headD (.null, .null)).2
  | .error _ => .null

/-- Number of compiled nodes of a collection result. -/
def nodesCount (r : Except Err CollectRes) : Nat :=
  match r with
  | .ok res => res.nodes.length
  | .error _ => 0

/-! ## Lemmas -/

theorem getKey?_setKey_self (fs : List (List Nat × JVal)) (k : List Nat) (v : JVal) :
    getKey? (setKey fs k v) k = some v := by
  induction fs with
  | nil => simp [setKey, getKey?]
  | cons kv rest ih =>
    obtain ⟨k', v'⟩ := kv
    by_cases h : k' = k <;> simp [setKey, getKey?, h, ih]

theorem getKey?_setKey_ne (fs : List (List Nat × JVal)) {k k2 : List Nat} (v : JVal)
    (h : k ≠ k2) : getKey? (setKey fs k v) k2 = getKey? fs k2 := by
  induction fs with
  | nil => simp [setKey, getKey?, h]
  | cons kv rest ih =>
    obtain ⟨k', v'⟩ := kv
    by_cases h1 : k' = k <;> by_cases h2 : k' = k2 <;>
      simp_all [setKey, getKey?]

theorem eraseKey_setKey (fs : List (List Nat × JVal)) (k : List Nat) (v : JVal) :
    eraseKey k (setKey fs k v) = eraseKey k fs := by
  induction fs with
  | nil => simp [setKey, eraseKey]
  | cons kv rest ih =>
    obtain ⟨k', v'⟩ := kv
    by_cases h : k' = k <;> simp [setKey, eraseKey, h, ih]

theorem eraseKey_setKey_ne (fs : List (List Nat × JVal)) {k k2 : List Nat} (v : JVal)
    (h : k ≠ k2) : eraseKey k2 (setKey fs k v) = setKey (eraseKey k2 fs) k v := by
  induction fs with
  | nil => simp [setKey, eraseKey, h]
  | cons kv rest ih =>
    obtain ⟨k', v'⟩ := kv
    by_cases h1 : k' = k <;> by_cases h2 : k' = k2 <;>
      simp_all [setKey, eraseKey]

theorem getKey?_append_left {fs : List (List Nat × JVal)} (gs : List (List Nat × JVal))
    {k : List Nat} {v : JVal} (h : getKey? fs k = some v) :
    getKey? (fs ++ gs) k = some v := by
  induction fs with
  | nil => simp [getKey?] at h
  | cons kv rest ih =>
    obtain ⟨k', v'⟩ := kv
    by_cases h1 : k' = k <;> simp_all [getKey?]

theorem getKey?_append_right {fs : List (List Nat × JVal)} (gs : List (List Nat × JVal))
    {k : List Nat} (h : hasKey fs k = false) :
    getKey? (fs ++ gs) k = getKey? gs k := by
  induction fs with
  | nil => simp
  | cons kv rest ih =>
    obtain ⟨k', v'⟩ := kv
    by_cases h1 : k' = k <;> simp_all [getKey?, hasKey]

theorem eraseKey_not_has {fs : List (List Nat × JVal)} {k : List Nat}
    (h : hasKey fs k = false) : eraseKey k fs = fs := by
  induction fs with
  | nil => simp [eraseKey]
  | cons kv rest ih =>
    obtain ⟨k', v'⟩ := kv
    by_cases h1 : k' = k <;> simp_all [eraseKey, hasKey, getKey?]

theorem eraseKey_append_left {fs : List (List Nat × JVal)} (gs : List (List Nat × JVal))
    {k : List Nat} (h : hasKey fs k = false) :
    eraseKey k (fs ++ gs) = fs ++ eraseKey k gs := by
  induction fs with
  | nil => simp
  | cons kv rest ih =>
    obtain ⟨k', v'⟩ := kv
    by_cases h1 : k' = k <;> simp_all [eraseKey, hasKey, getKey?]

theorem setKey_not_has {fs : List (List Nat × JVal)} {k : List Nat} (v : JVal)
    (h : hasKey fs k = false) : setKey fs k v = fs ++ [(k, v)] := by
  induction fs with
  | nil => simp [setKey]
  | cons kv rest ih =>
    obtain ⟨k', v'⟩ := kv
    by_cases h1 : k' = k <;> simp_all [setKey, hasKey, getKey?]

theorem setKey_append_right {fs : List (List Nat × JVal)} (gs : List (List Nat × JVal))
    {k : List Nat} (v : JVal) (h : hasKey fs k = false) :
    setKey (fs ++ gs) k v = fs ++ setKey gs k v := by
  induction fs with
  | nil => simp
  | cons kv rest ih =>
    obtain ⟨k', v'⟩ := kv
    by_cases h1 : k' = k <;> simp_all [setKey, hasKey, getKey?]

theorem hasKey_append (fs gs : List (List Nat × JVal)) (k : List Nat) :
    hasKey (fs ++ gs) k = (hasKey fs k || hasKey gs k) := by
  induction fs with
  | nil => simp [hasKey, getKey?]
  | cons kv rest ih =>
    obtain ⟨k', v'⟩ := kv
    by_cases h1 : k' = k <;> simp_all [hasKey, getKey?]

theorem provK_ne_verK : provK ≠ verK := by decide

theorem provK_ne_srcK : provK ≠ srcK := by decide

theorem stripFields_setKey_prov (fs : List (List Nat × JVal)) (v : JVal) :
    stripFields (setKey fs provK v) = stripFields fs := by
  simp [stripFields, eraseKey_setKey]

theorem stripFields_setKey_ver (fs : List (List Nat × JVal)) (v : JVal) :
    stripFields (setKey fs verK v) = stripFields fs := by
  simp [stripFields, eraseKey_setKey_ne fs v (Ne.symm provK_ne_verK), eraseKey_setKey]

theorem eraseKey_append_has {fs : List (List Nat × JVal)} (gs : List (List Nat × JVal))
    {k : List Nat} (h : hasKey fs k = true) :
    eraseKey k (fs ++ gs) = eraseKey k fs ++ gs := by
  induction fs with
  | nil => simp [hasKey, getKey?] at h
  | cons kv rest ih =>
    obtain ⟨k', v'⟩ := kv
    by_cases h1 : k' = k <;> simp_all [eraseKey, hasKey, getKey?]

theorem hasKey_eraseKey {fs : List (List Nat × JVal)} {k k' : List Nat}
    (h : hasKey fs k = false) : hasKey (eraseKey k' fs) k = false := by
  induction fs with
  | nil => simpa using h
  | cons kv rest ih =>
    obtain ⟨k2, v2⟩ := kv
    by_cases h1 : k2 = k' <;> by_cases h2 : k2 = k <;>
      simp_all [eraseKey, hasKey, getKey?]

theorem stripFields_ensureKey_prov (fs : List (List Nat × JVal)) (d : JVal) :
    stripFields (ensureKey fs provK d) = stripFields fs := by
  unfold ensureKey
  by_cases h : hasKey fs provK
  · simp [h]
  · have h' : hasKey fs provK = false := by simpa using h
    simp only [h', Bool.false_eq_true, if_false, stripFields]
    rw [eraseKey_append_left _ h', eraseKey_not_has h']
    simp [eraseKey]

theorem stripFields_ensureKey_ver (fs : List (List Nat × JVal)) (d : JVal) :
    stripFields (ensureKey fs verK d) = stripFields fs := by
  unfold ensureKey
  by_cases h : hasKey fs verK
  · simp [h]
  · have h' : hasKey fs verK = false := by simpa using h
    simp only [h', Bool.false_eq_true, if_false, stripFields]
    by_cases hp : hasKey fs provK
    · rw [eraseKey_append_has _ hp, eraseKey_append_left _ (hasKey_eraseKey h'),
        eraseKey_not_has (hasKey_eraseKey h')]
      simp [eraseKey]
    · have hp' : hasKey fs provK = false := by simpa using hp
      rw [eraseKey_append_left _ hp']
      have : eraseKey provK [(verK, d)] = [(verK, d)] := by
        simp [eraseKey, Ne.symm provK_ne_verK]
      rw [this, eraseKey_append_left _ h', eraseKey_not_has hp', eraseKey_not_has h']
      simp [eraseKey]

theorem stripFields_no_meta {fs : List (List Nat × JVal)}
    (hp : hasKey fs provK = false) (hv : hasKey fs verK = false) :
    stripFields fs = fs := by
  simp [stripFields, eraseKey_not_has hp, eraseKey_not_has hv]

theorem pyEq_refl (a : JVal) : pyEq a a = true := by
  simp [pyEq, jeq_spec]

theorem pyEq_comm (a b : JVal) : pyEq a b = pyEq b a := by
  unfold pyEq
  rw [Bool.eq_iff_iff, jeq_spec, jeq_spec]
  exact eq_comm

theorem pyEq_norm_iff {a b : JVal} : pyEq a b = true ↔ normJ a = normJ b := by
  simp [pyEq, jeq_spec]

/-- Python-equal values serialize identically under `sort_keys=True`. -/
theorem dumps_eq_of_pyEq {a b : JVal} (h : pyEq a b = true) : dumps a = dumps b := by
  unfold dumps
  rw [pyEq_norm_iff.mp h]

theorem setKey_setKey (fs : List (List Nat × JVal)) (k : List Nat) (v w : JVal) :
    setKey (setKey fs k v) k w = setKey fs k w := by
  induction fs with
  | nil => simp [setKey]
  | cons kv rest ih =>
    obtain ⟨k', v'⟩ := kv
    by_cases h : k' = k <;> simp [setKey, h, ih]

theorem nodes_equal_setKey_prov (cf inf : List (List Nat × JVal)) (v : JVal) :
    nodes_equal (setKey cf provK v) inf = nodes_equal cf inf := by
  simp [nodes_equal, stripFields_setKey_prov]

theorem hasKey_of_getKey? {fs : List (List Nat × JVal)} {k : List Nat} {v : JVal}
    (h : getKey? fs k = some v) : hasKey fs k = true := by
  simp [hasKey, h]

/-- Equal-content branch of `append_only_merge`, in closed form. -/
theorem merge_equal_case {cf pf inf : List (List Nat × JVal)} {cs is2 : List JVal}
    (hprov : getKey? cf provK = some (.obj pf))
    (hsrc : getKey? pf srcK = some (.arr cs))
    (heq : nodes_equal cf inf = true)
    (hinc : incomingSources inf = .ok is2) :
    append_only_merge (.obj cf) (.obj inf) =
      .ok (.obj (setKey cf provK (.obj (setKey pf srcK (.arr (cs ++ is2)))))) := by
  simp only [append_only_merge, heq, if_true, ensureKey, hasKey_of_getKey? hprov,
    hasKey_of_getKey? hsrc, hprov, hsrc, hinc]

/-- C1: when current and incoming agree on every field other than
`provenance` and `versions` (deep structural equality, i.e. Python `==` on
the stripped copies), `append_only_merge` returns current with incoming's
`provenance.sources` entries appended in order onto current's, every other
top-level field — `versions` included — unchanged; and merging the same
unchanged fragment a second time appends the same source entries again
(no deduplication). -/
theorem C1_equal_merge_appends_provenance
    (cf pf inf : List (List Nat × JVal)) (cs is2 : List JVal)
    (hprov : getKey? cf provK = some (.obj pf))
    (hsrc : getKey? pf srcK = some (.arr cs))
    (heq : nodes_equal cf inf = true)
    (hinc : incomingSources inf = .ok is2) :
    append_only_merge (.obj cf) (.obj inf) =
      .ok (.obj (setKey cf provK (.obj (setKey pf srcK (.arr (cs ++ is2)))))) ∧
    sourcesOf (.obj (setKey cf provK (.obj (setKey pf srcK (.arr (cs ++ is2)))))) =
      cs ++ is2 ∧
    (∀ k, k ≠ provK →
      getKey? (setKey cf provK (.obj (setKey pf srcK (.arr (cs ++ is2))))) k =
        getKey? cf k) ∧
    append_only_merge
        (.obj (setKey cf provK (.obj (setKey pf srcK (.arr (cs ++ is2)))))) (.obj inf) =
      .ok (.obj (setKey cf provK (.obj (setKey pf srcK (.arr (cs ++ is2 ++ is2)))))) := by
  refine ⟨merge_equal_case hprov hsrc heq hinc, ?_, ?_, ?_⟩
  · simp [sourcesOf, getKey?_setKey_self]
  · intro k hk
    exact getKey?_setKey_ne cf _ (Ne.symm hk)
  · have h2 := @merge_equal_case
      (setKey cf provK (.obj (setKey pf srcK (.arr (cs ++ is2)))))
      (setKey pf srcK (.arr (cs ++ is2))) inf (cs ++ is2) is2
      (getKey?_setKey_self cf provK _) (getKey?_setKey_self pf srcK _)
      (by rw [nodes_equal_setKey_prov]; exact heq) hinc
    rw [h2, setKey_setKey, setKey_setKey]

theorem C1_equal_merge_appends_provenance_witness :
    append_only_merge (.obj cfW) (.obj infW) =
      .ok (.obj (setKey cfW provK (.obj (setKey pfW srcK
        (.arr ([.str (bs "s1")] ++ [.str (bs "s2")])))))) :=
  (C1_equal_merge_appends_provenance cfW pfW infW [.str (bs "s1")] [.str (bs "s2")]
    (by decide) (by decide) (by decide) (by decide)).1

/-- Divergent-content branch of `append_only_merge`, in closed form. -/
theorem merge_diff_case {cf inf : List (List Nat × JVal)} {vs : List JVal}
    (hne : nodes_equal cf inf = false)
    (hver : getKey? (ensureKey cf verK (.arr [])) verK = some (.arr vs)) :
    append_only_merge (.obj cf) (.obj inf) =
      (match scanHash vs (sha256_bytes (dumps (.obj inf))) with
       | .error e => .error e
       | .ok true => .ok (.obj (ensureKey cf verK (.arr [])))
       | .ok false => .ok (.obj (setKey (ensureKey cf verK (.arr [])) verK
           (.arr (vs ++ [.obj (setKey inf hashK
             (.str (sha256_bytes (dumps (.obj inf)))))]))))) := by
  simp only [append_only_merge, hne, Bool.false_eq_true, if_false, hver]

theorem scanHash_nil (h : List Nat) : scanHash [] h = .ok false := rfl

theorem ensureKey_eq_of_scanHash_true {cf : List (List Nat × JVal)} {vs : List JVal}
    {h : List Nat} (hver : getKey? (ensureKey cf verK (.arr [])) verK = some (.arr vs))
    (htrue : scanHash vs h = .ok true) :
    ensureKey cf verK (.arr []) = cf := by
  unfold ensureKey at hver ⊢
  by_cases hk : hasKey cf verK
  · simp [hk]
  · exfalso
    have hk' : hasKey cf verK = false := by simpa using hk
    rw [if_neg (by simp [hk']), getKey?_append_right _ hk'] at hver
    simp [getKey?] at hver
    subst hver
    simp [scanHash] at htrue

/-- C2: when the stripped contents differ, `append_only_merge` hashes the
key-sorted JSON serialization of incoming to its first 16 hex characters;
if no entry of current's `versions` carries that `_hash`, incoming tagged
with the hash is appended to `versions` (the list being created empty
first when absent); if an entry already carries it the merge returns
current unchanged; and Python-equal incoming records hash identically
regardless of field order. -/
theorem C2_divergent_merge_hash_dedup
    (cf inf : List (List Nat × JVal)) (vs : List JVal)
    (hne : nodes_equal cf inf = false)
    (hver : getKey? (ensureKey cf verK (.arr [])) verK = some (.arr vs)) :
    (scanHash vs (sha256_bytes (dumps (.obj inf))) = .ok false →
      append_only_merge (.obj cf) (.obj inf) =
        .ok (.obj (setKey (ensureKey cf verK (.arr [])) verK
          (.arr (vs ++ [.obj (setKey inf hashK
            (.str (sha256_bytes (dumps (.obj inf)))))]))))) ∧
    (scanHash vs (sha256_bytes (dumps (.obj inf))) = .ok true →
      append_only_merge (.obj cf) (.obj inf) = .ok (.obj cf)) ∧
    (∀ inf' : JVal, pyEq (.obj inf) inf' = true →
      sha256_bytes (dumps (.obj inf)) = sha256_bytes (dumps inf')) := by
  refine ⟨?_, ?_, ?_⟩
  · intro hfalse
    rw [merge_diff_case hne hver, hfalse]
  · intro htrue
    rw [merge_diff_case hne hver, htrue,
      ensureKey_eq_of_scanHash_true hver htrue]
  · intro inf' hpe
    rw [dumps_eq_of_pyEq hpe]

theorem C2_divergent_merge_hash_dedup_witness :
    append_only_merge (.obj cfX) (.obj infX) =
      .ok (.obj (setKey (ensureKey cfX verK (.arr [])) verK
        (.arr ([] ++ [.obj (setKey infX hashK
          (.str (sha256_bytes (dumps (.obj infX)))))])))) :=
  (C2_divergent_merge_hash_dedup cfX infX [] (by decide) (by decide)).1
    (scanHash_nil _)

theorem isDigitCh_iff {c : Nat} : isDigitCh c = true ↔ (48 ≤ c ∧ c ≤ 57) := by
  simp [isDigitCh]

theorem isArcanaCh_iff {c : Nat} : isArcanaCh c = true ↔
    ((65 ≤ c ∧ c ≤ 90) ∨ (48 ≤ c ∧ c ≤ 57) ∨ c = 95 ∨ c = 45) := by
  simp [isArcanaCh, isDigitCh]
  tauto

/-- The compiled regex accepts exactly the identifier language the spec
describes. -/
theorem matchId_iff (s : List Nat) : matchId s = true ↔ specIdShape s := by
  have hl6 : (bs "C144N-").length = 6 := by decide
  have hl13 : (bs "C144N-ARCANA-").length = 13 := by decide
  unfold matchId specIdShape
  simp only [Bool.or_eq_true, Bool.and_eq_true, List.isPrefixOf_iff_prefix,
    beq_iff_eq, Bool.not_eq_true', List.isEmpty_eq_false, List.all_eq_true]
  constructor
  · rintro (⟨⟨hpre, hlen⟩, hall⟩ | ⟨⟨hpre, hne⟩, hall⟩)
    · obtain ⟨t, ht⟩ := hpre
      left
      refine ⟨s.drop 6, ?_, hlen, fun c hc => isDigitCh_iff.mp (hall c hc)⟩
      rw [← ht, ← hl6, List.drop_left]
    · obtain ⟨u, hu⟩ := hpre
      right
      refine ⟨s.drop 13, ?_, hne, fun c hc => isArcanaCh_iff.mp (hall c hc)⟩
      rw [← hu, ← hl13, List.drop_left]
  · rintro (⟨t, hs, hlen, hall⟩ | ⟨u, hs, hne, hall⟩)
    · left
      subst hs
      rw [← hl6, List.drop_left]
      exact ⟨⟨⟨t, rfl⟩, hlen⟩, fun c hc => isDigitCh_iff.mpr (hall c hc)⟩
    · right
      subst hs
      rw [← hl13, List.drop_left]
      exact ⟨⟨⟨u, rfl⟩, hne⟩, fun c hc => isArcanaCh_iff.mpr (hall c hc)⟩

/-- C5: with the full schema library unavailable, `validate_node` falls
back to `ensure_schema_minimum`, which fails iff `id` is missing, is not a
string, or fails the two-alternative identifier pattern (`C144N-` plus
exactly three digits, or `C144N-ARCANA-` plus one or more of
`[A-Z0-9_-]`); it reports the first violated constraint with a message
naming it, and returns without effect on a conforming node. -/
theorem C5_fallback_validator (fs : List (List Nat × JVal)) (source : List Nat) :
    (validate_node (.obj fs) source = .ok () ↔
      ∃ s, getKey? fs idK = some (.str s) ∧ specIdShape s) ∧
    (getKey? fs idK = none →
      validate_node (.obj fs) source =
        .error (.schema (schemaMsg source (bs "missing 'id'")))) ∧
    (∀ v, getKey? fs idK = some v → (∀ s, v ≠ .str s) →
      validate_node (.obj fs) source =
        .error (.schema (schemaMsg source (bs "id must be a string")))) ∧
    (∀ s, getKey? fs idK = some (.str s) → ¬ specIdShape s →
      validate_node (.obj fs) source =
        .error (.schema (schemaMsg source (bs "id does not match pattern")))) := by
  refine ⟨⟨?_, ?_⟩, ?_, ?_, ?_⟩
  · intro h
    rcases hid : getKey? fs idK with _ | v
    · simp [validate_node, ensure_schema_minimum, hid] at h
    · rcases v with _ | b | n | sv | xs | gs
      case str =>
        by_cases hm : matchId sv
        · exact ⟨sv, rfl, (matchId_iff sv).mp hm⟩
        · simp [validate_node, ensure_schema_minimum, hid, hm] at h
      all_goals simp [validate_node, ensure_schema_minimum, hid] at h
  · rintro ⟨s, hs, hspec⟩
    have hm := (matchId_iff s).mpr hspec
    simp [validate_node, ensure_schema_minimum, hs, hm]
  · intro h
    simp [validate_node, ensure_schema_minimum, h]
  · intro v hv hne
    rcases v with _ | b | n | sv | xs | gs
    case str => exact absurd rfl (hne sv)
    all_goals simp [validate_node, ensure_schema_minimum, hv]
  · intro s hs hnspec
    have hm : matchId s = false := by
      rcases h : matchId s
      · rfl
      · exact absurd ((matchId_iff s).mp h) hnspec
    simp [validate_node, ensure_schema_minimum, hs, hm]

theorem C5_fallback_validator_witness :
    validate_node (.obj [(idK, .num 7)]) (bs "n.json") =
      .error (.schema (schemaMsg (bs "n.json") (bs "id must be a string"))) :=
  (C5_fallback_validator [(idK, .num 7)] (bs "n.json")).2.2.1 (.num 7) (by decide)
    (fun _ h => JVal.noConfusion h)

theorem extract_foldl_filterMap (loads : List Nat → Option JVal)
    (gs : List (List Nat)) : ∀ acc,
    gs.foldl (fun acc g => match loads g with
      | some v => acc ++ [v]
      | none => acc) acc = acc ++ gs.filterMap loads := by
  induction gs with
  | nil => intro acc; simp
  | cons g gs ih =>
    intro acc
    rcases h : loads g with _ | v <;>
      simp [List.filterMap_cons, h, ih, List.append_assoc]

/-- C6: `extract_json_blocks` returns, in order of appearance, exactly the
successfully parsed objects of the `json`-tagged fenced blocks (an
in-order `filterMap` of the parser over the fence matches); a block the
parser rejects is skipped silently, never raised; the sequence is finite,
bounded by the number of blocks; and as a pure function of the text it
returns the same sequence on every rerun. -/
theorem C6_extract_json_blocks (loads : List Nat → Option JVal) (text : List Nat) :
    extract_json_blocks loads text = (fenceMatches text).filterMap loads ∧
    (extract_json_blocks loads text).length ≤ (fenceMatches text).length := by
  have h : extract_json_blocks loads text = (fenceMatches text).filterMap loads := by
    unfold extract_json_blocks
    rw [extract_foldl_filterMap loads (fenceMatches text) []]
    simp
  exact ⟨h, by rw [h]; exact List.length_filterMap_le loads (fenceMatches text)⟩

/-- C10: a node file whose JSON parses to a falsy value (empty dict/list,
`null`, `false`, `0`, empty string), or to a dict whose `id` is absent or
the empty string, is skipped before annotation and validation ever run —
the ingest step returns the compiled mapping unchanged and cannot abort,
even though an empty-string id violates the identifier pattern; a ledger
block (which flows through the same per-fragment pipeline, `ingestValue`)
with an absent or empty id is skipped the same way. -/
theorem C10_falsy_and_empty_id_skipped
    (env : Option (List Nat)) (clock : Clock) (compiled : List (JVal × JVal))
    (path : List Nat) (d : JVal) (fs : List (List Nat × JVal)) :
    (truthy d = false → ingestNodeFile env clock compiled (path, some d) = .ok compiled) ∧
    (getKey? fs idK = none ∨ getKey? fs idK = some (.str []) →
      ingestNodeFile env clock compiled (path, some (.obj fs)) = .ok compiled ∧
      ingestValue env clock compiled (.obj fs) path = .ok compiled) := by
  constructor
  · intro h
    simp [ingestNodeFile, h]
  · intro h
    have hIV : ingestValue env clock compiled (.obj fs) path = .ok compiled := by
      rcases h with h | h <;> simp [ingestValue, pyGet, h, truthy]
    refine ⟨?_, hIV⟩
    by_cases ht : truthy (.obj fs)
    · simp [ingestNodeFile, ht, hIV]
    · simp [ingestNodeFile, ht]

theorem C10_falsy_and_empty_id_skipped_witness :
    ingestNodeFile none clockW [] (bs "p.json", some (.num 0)) = .ok [] ∧
    ingestValue none clockW [] (.obj [(idK, .str [])]) (bs "ledger.md") = .ok [] :=
  ⟨(C10_falsy_and_empty_id_skipped none clockW [] (bs "p.json") (.num 0) []).1
      (by decide),
   ((C10_falsy_and_empty_id_skipped none clockW [] (bs "ledger.md") (.num 0)
      [(idK, .str [])]).2 (Or.inr (by decide))).2⟩

theorem stripFields_append {xf rest : List (List Nat × JVal)}
    (hxp : hasKey xf provK = false) (hxv : hasKey xf verK = false) :
    stripFields (xf ++ rest) = xf ++ stripFields rest := by
  unfold stripFields
  rw [eraseKey_append_left _ hxp, eraseKey_append_left _ hxv]

theorem normalise_no_prov {xf : List (List Nat × JVal)} (hxp : hasKey xf provK = false)
    (pa : List Nat) (env : Option (List Nat)) (clock : Clock) :
    normalise_node (.obj xf) pa env clock =
      .ok (.obj (xf ++ [(provK, .obj [(srcK,
        .arr [provEntry pa (commitOf env) (timestampOf clock)])])])) := by
  simp only [normalise_node]
  rw [show ensureKey xf provK (.obj []) = xf ++ [(provK, .obj [])] by
    simp [ensureKey, hxp]]
  rw [getKey?_append_right _ hxp]
  have hset : ∀ (gs : List (List Nat × JVal)) (v : JVal),
      setKey (xf ++ gs) provK v = xf ++ setKey gs provK v :=
    fun gs v => setKey_append_right gs v hxp
  simp [getKey?, ensureKey, hasKey, setKey, hset]

theorem truthy_of_getKey? {fs : List (List Nat × JVal)} {k : List Nat} {v : JVal}
    (h : getKey? fs k = some v) : truthy (.obj fs) = true := by
  cases fs with
  | nil => simp [getKey?] at h
  | cons kv rest => simp [truthy]

theorem matchId_nonempty {s : List Nat} (h : matchId s = true) : s ≠ [] := by
  intro he
  subst he
  exact absurd h (by decide)

theorem getKey?_none {fs : List (List Nat × JVal)} {k : List Nat}
    (h : hasKey fs k = false) : getKey? fs k = none := by
  rcases hg : getKey? fs k with _ | v
  · rfl
  · rw [hasKey, hg] at h
    simp at h

theorem truthy_str_of_matchId {s : List Nat} (hs : matchId s = true) :
    truthy (.str s) = true := by
  simp [truthy, List.isEmpty_eq_false]
  exact matchId_nonempty hs

theorem ingestNodeFile_some_truthy {env : Option (List Nat)} {clock : Clock}
    {compiled : List (JVal × JVal)} {path : List Nat} {d : JVal}
    (h : truthy d = true) :
    ingestNodeFile env clock compiled (path, some d) =
      ingestValue env clock compiled d path := by
  simp [ingestNodeFile, h]

theorem ingestValue_steps {env : Option (List Nat)} {clock : Clock}
    {compiled : List (JVal × JVal)} {data : JVal} {source : List Nat}
    {idv node : JVal}
    (hid : pyGet data idK = .ok idv) (ht : truthy idv = true)
    (hnorm : normalise_node data source env clock = .ok node)
    (hval : validate_node node source = .ok ()) :
    ingestValue env clock compiled data source =
      (match mapGet? compiled idv with
       | none => .ok (compiled ++ [(idv, node)])
       | some cur =>
         match append_only_merge cur node with
         | .error e => .error e
         | .ok merged => .ok (mapSet compiled idv merged)) := by
  simp [ingestValue, hid, ht, hnorm, hval]

theorem validate_ok_append {xf rest : List (List Nat × JVal)} {s : List Nat}
    (hxid : getKey? xf idK = some (.str s)) (hs : matchId s = true)
    (src : List Nat) : validate_node (.obj (xf ++ rest)) src = .ok () := by
  simp [validate_node, ensure_schema_minimum, getKey?_append_left _ hxid, hs]

/-- C3 (amended): for one node id, ingesting content X, then differing
content Y, then X again yields a compiled node whose `versions` list has
exactly one entry (the archived Y, which carries Y's own source entry
inside it) and whose `provenance.sources` has length 2 — the entries from
the first and third ingestion; the middle, divergent ingestion does not
extend the current node's sources. -/
theorem C3_ingest_xyx_two_sources
    (env : Option (List Nat)) (clock : Clock) (pa pb pc : List Nat)
    (xf yf : List (List Nat × JVal)) (s : List Nat)
    (hxid : getKey? xf idK = some (.str s))
    (hyid : getKey? yf idK = some (.str s))
    (hs : matchId s = true)
    (hxp : hasKey xf provK = false) (hxv : hasKey xf verK = false)
    (hyp : hasKey yf provK = false) (hyv : hasKey yf verK = false)
    (hne : pyEq (.obj xf) (.obj yf) = false) :
    ∃ m1 m2 node,
      ingestNodeFile env clock [] (pa, some (.obj xf)) = .ok m1 ∧
      ingestNodeFile env clock m1 (pb, some (.obj yf)) = .ok m2 ∧
      ingestNodeFile env clock m2 (pc, some (.obj xf)) = .ok [(.str s, node)] ∧
      (versionsOf node).length = 1 ∧
      sourcesOf node = [provEntry pa (commitOf env) (timestampOf clock),
                        provEntry pc (commitOf env) (timestampOf clock)] ∧
      (sourcesOf node).length = 2 ∧
      ∀ ver ∈ versionsOf node,
        sourcesOf ver = [provEntry pb (commitOf env) (timestampOf clock)] := by
  have hts := truthy_str_of_matchId hs
  have htx := truthy_of_getKey? hxid
  have hty := truthy_of_getKey? hyid
  have hpv : (provK = verK) = False := by simp [provK_ne_verK]
  set e1 := provEntry pa (commitOf env) (timestampOf clock) with hE1
  set e2 := provEntry pb (commitOf env) (timestampOf clock) with hE2
  set e3 := provEntry pc (commitOf env) (timestampOf clock) with hE3
  set P1 : JVal := .obj [(srcK, .arr [e1])] with hP1
  set P2 : JVal := .obj [(srcK, .arr [e2])] with hP2
  set P3 : JVal := .obj [(srcK, .arr [e3])] with hP3
  -- step 1
  have h1 : ingestNodeFile env clock [] (pa, some (.obj xf)) =
      .ok [(.str s, .obj (xf ++ [(provK, P1)]))] := by
    rw [ingestNodeFile_some_truthy htx,
      ingestValue_steps (by simp [pyGet, hxid]) hts (normalise_no_prov hxp pa env clock)
        (validate_ok_append hxid hs _)]
    simp [mapGet?]
  -- step 2: divergent content is archived
  have hstrip1 : ∀ A : JVal, stripFields [(provK, A)] = [] := by
    intro A
    simp [stripFields, eraseKey]
  have hstrip2 : ∀ A B : JVal, stripFields [(provK, A), (verK, B)] = [] := by
    intro A B
    simp [stripFields, eraseKey, hpv]
  have hne2 : nodes_equal (xf ++ [(provK, P1)]) (yf ++ [(provK, P2)]) = false := by
    unfold nodes_equal
    rw [stripFields_append hxp hxv, stripFields_append hyp hyv, hstrip1, hstrip1]
    simpa using hne
  have hverN : hasKey (xf ++ [(provK, P1)]) verK = false := by
    rw [hasKey_append]
    simp [hasKey, getKey?, getKey?_none hxv, hpv]
  have hver2 : getKey? (ensureKey (xf ++ [(provK, P1)]) verK (.arr [])) verK =
      some (.arr []) := by
    rw [show ensureKey (xf ++ [(provK, P1)]) verK (.arr []) =
        (xf ++ [(provK, P1)]) ++ [(verK, .arr [])] by simp [ensureKey, hverN]]
    rw [getKey?_append_right _ hverN]
    simp [getKey?]
  set hsh := sha256_bytes (dumps (.obj (yf ++ [(provK, P2)]))) with hH
  set tagged : JVal := .obj (setKey (yf ++ [(provK, P2)]) hashK (.str hsh)) with hT
  have h2merge : append_only_merge (.obj (xf ++ [(provK, P1)]))
      (.obj (yf ++ [(provK, P2)])) =
      .ok (.obj (xf ++ [(provK, P1), (verK, .arr [tagged])])) := by
    rw [merge_diff_case hne2 hver2]
    rw [show ensureKey (xf ++ [(provK, P1)]) verK (.arr []) =
        (xf ++ [(provK, P1)]) ++ [(verK, .arr [])] by simp [ensureKey, hverN]]
    rw [setKey_append_right _ _ hverN]
    simp [scanHash, setKey, hT, hH]
  have h2 : ingestNodeFile env clock [(.str s, .obj (xf ++ [(provK, P1)]))]
      (pb, some (.obj yf)) =
      .ok [(.str s, .obj (xf ++ [(provK, P1), (verK, .arr [tagged])]))] := by
    rw [ingestNodeFile_some_truthy hty,
      ingestValue_steps (by simp [pyGet, hyid]) hts (normalise_no_prov hyp pb env clock)
        (validate_ok_append hyid hs _)]
    simp only [mapGet?, pyEq_refl, if_true, h2merge]
    simp [mapSet, pyEq_refl]
  -- step 3: equal content extends provenance only
  have hprov3 : getKey? (xf ++ [(provK, P1), (verK, .arr [tagged])]) provK =
      some P1 := by
    rw [getKey?_append_right _ hxp]
    simp [getKey?]
  have hsrc3 : getKey? [(srcK, .arr [e1])] srcK = some (.arr [e1]) := by
    simp [getKey?]
  have heq3 : nodes_equal (xf ++ [(provK, P1), (verK, .arr [tagged])])
      (xf ++ [(provK, P3)]) = true := by
    unfold nodes_equal
    rw [stripFields_append hxp hxv, stripFields_append hxp hxv, hstrip1, hstrip2]
    simp [pyEq_refl]
  have hinc3 : incomingSources (xf ++ [(provK, P3)]) = .ok [e3] := by
    simp only [incomingSources]
    rw [getKey?_append_right _ hxp]
    simp [getKey?, iterElems, hP3]
  have h3merge := merge_equal_case hprov3 hsrc3 heq3 hinc3
  rw [show setKey [(srcK, .arr [e1])] srcK (.arr ([e1] ++ [e3])) =
      [(srcK, .arr [e1, e3])] by simp [setKey]] at h3merge
  rw [setKey_append_right _ _ hxp] at h3merge
  rw [show setKey [(provK, P1), (verK, .arr [tagged])] provK
      (.obj [(srcK, .arr [e1, e3])]) =
      [(provK, .obj [(srcK, .arr [e1, e3])]), (verK, .arr [tagged])] by
    simp [setKey]] at h3merge
  have h3 : ingestNodeFile env clock
      [(.str s, .obj (xf ++ [(provK, P1), (verK, .arr [tagged])]))]
      (pc, some (.obj xf)) =
      .ok [(.str s, .obj (xf ++
        [(provK, .obj [(srcK, .arr [e1, e3])]), (verK, .arr [tagged])]))] := by
    rw [ingestNodeFile_some_truthy htx,
      ingestValue_steps (by simp [pyGet, hxid]) hts (normalise_no_prov hxp pc env clock)
        (validate_ok_append hxid hs _)]
    simp only [mapGet?, pyEq_refl, if_true, h3merge]
    simp [mapSet, pyEq_refl]
  refine ⟨_, _, _, h1, h2, h3, ?_, ?_, ?_, ?_⟩
  · rw [show versionsOf (.obj (xf ++
      [(provK, .obj [(srcK, .arr [e1, e3])]), (verK, .arr [tagged])])) = [tagged] by
      simp only [versionsOf]
      rw [getKey?_append_right _ hxv]
      simp [getKey?, hpv]]
    rfl
  · simp only [sourcesOf]
    rw [getKey?_append_right _ hxp]
    simp [getKey?]
  · simp only [sourcesOf]
    rw [getKey?_append_right _ hxp]
    simp [getKey?]
  · intro ver hver
    rw [show versionsOf (.obj (xf ++
      [(provK, .obj [(srcK, .arr [e1, e3])]), (verK, .arr [tagged])])) = [tagged] by
      simp only [versionsOf]
      rw [getKey?_append_right _ hxv]
      simp [getKey?, hpv]] at hver
    simp at hver
    subst hver
    simp only [sourcesOf]
    rw [getKey?_setKey_ne _ _ (by decide : hashK ≠ provK)]
    rw [getKey?_append_right _ hyp]
    simp [getKey?]

/-- C3 counterexample: on the concrete X, Y, X ingestion the compiled node
has `versions` of length 1 but `provenance.sources` of length 2 — not 3 as
claimed; the divergent Y's source entry is archived inside the `versions`
entry, not appended to the current node's sources. -/
theorem C3_counterexample_sources_length_two :
    firstNodeStats (collect_nodes loadsNone none clockW treeXYX) = some (1, 2) ∧
    firstNodeStats (collect_nodes loadsNone none clockW treeXYX) ≠ some (1, 3) := by
  have h : firstNodeStats (collect_nodes loadsNone none clockW treeXYX) = some (1, 2) := by
    decide
  refine ⟨h, ?_⟩
  rw [h]
  decide

theorem C3_ingest_xyx_two_sources_witness :
    ∃ m1 m2 node,
      ingestNodeFile none clockW [] (bs "a.json",
        some (.obj [(idK, .str (bs "C144N-001")), (bs "title", .str (bs "Alpha"))])) =
        .ok m1 ∧
      ingestNodeFile none clockW m1 (bs "b.json",
        some (.obj [(idK, .str (bs "C144N-001")), (bs "title", .str (bs "Beta"))])) =
        .ok m2 ∧
      ingestNodeFile none clockW m2 (bs "c.json",
        some (.obj [(idK, .str (bs "C144N-001")), (bs "title", .str (bs "Alpha"))])) =
        .ok [(.str (bs "C144N-001"), node)] ∧
      (versionsOf node).length = 1 ∧
      sourcesOf node = [provEntry (bs "a.json") (commitOf none) (timestampOf clockW),
                        provEntry (bs "c.json") (commitOf none) (timestampOf clockW)] ∧
      (sourcesOf node).length = 2 ∧
      ∀ ver ∈ versionsOf node,
        sourcesOf ver = [provEntry (bs "b.json") (commitOf none) (timestampOf clockW)] :=
  C3_ingest_xyx_two_sources none clockW (bs "a.json") (bs "b.json") (bs "c.json")
    [(idK, .str (bs "C144N-001")), (bs "title", .str (bs "Alpha"))]
    [(idK, .str (bs "C144N-001")), (bs "title", .str (bs "Beta"))]
    (bs "C144N-001") (by decide) (by decide) (by decide) (by decide) (by decide)
    (by decide) (by decide) (by decide)

theorem leStr_total (a : List Nat) : ∀ b, leStr a b = true ∨ leStr b a = true := by
  induction a with
  | nil => intro b; left; simp [leStr]
  | cons x xs ih =>
    intro b
    cases b with
    | nil => right; simp [leStr]
    | cons y ys =>
      simp only [leStr, Bool.or_eq_true, decide_eq_true_eq, Bool.and_eq_true,
        beq_iff_eq]
      rcases Nat.lt_trichotomy x y with h | h | h
      · exact Or.inl (Or.inl h)
      · subst h
        rcases ih ys with h2 | h2
        · exact Or.inl (Or.inr ⟨rfl, h2⟩)
        · exact Or.inr (Or.inr ⟨rfl, h2⟩)
      · exact Or.inr (Or.inl h)

theorem leStr_trans {a b c : List Nat} :
    leStr a b = true → leStr b c = true → leStr a c = true := by
  induction a generalizing b c with
  | nil => intro _ _; simp [leStr]
  | cons x xs ih =>
    intro h1 h2
    cases b with
    | nil => simp [leStr] at h1
    | cons y ys =>
      cases c with
      | nil => simp [leStr] at h2
      | cons z zs =>
        simp only [leStr, Bool.or_eq_true, decide_eq_true_eq, Bool.and_eq_true,
          beq_iff_eq] at h1 h2 ⊢
        rcases h1 with h1 | ⟨he1, h1⟩
        · rcases h2 with h2 | ⟨he2, h2⟩
          · exact Or.inl (by omega)
          · exact Or.inl (by omega)
        · rcases h2 with h2 | ⟨he2, h2⟩
          · exact Or.inl (by omega)
          · exact Or.inr ⟨by omega, ih h1 h2⟩

theorem ltStr_asymm {a b : List Nat} :
    ltStr a b = true → ltStr b a = true → False := by
  induction a generalizing b with
  | nil =>
    intro h1 h2
    cases b <;> simp [ltStr] at h1 h2
  | cons x xs ih =>
    intro h1 h2
    cases b with
    | nil => simp [ltStr] at h1
    | cons y ys =>
      simp only [ltStr, Bool.or_eq_true, decide_eq_true_eq, Bool.and_eq_true,
        beq_iff_eq] at h1 h2
      rcases h1 with h1 | ⟨he1, h1⟩
      · rcases h2 with h2 | ⟨he2, h2⟩
        · omega
        · omega
      · rcases h2 with h2 | ⟨he2, h2⟩
        · omega
        · exact ih h1 h2

theorem ltStr_of_leStr_ne {a b : List Nat} :
    leStr a b = true → a ≠ b → ltStr a b = true := by
  induction a generalizing b with
  | nil =>
    intro _ hne
    cases b with
    | nil => exact absurd rfl hne
    | cons y ys => simp [ltStr]
  | cons x xs ih =>
    intro h hne
    cases b with
    | nil => simp [leStr] at h
    | cons y ys =>
      simp only [leStr, Bool.or_eq_true, decide_eq_true_eq, Bool.and_eq_true,
        beq_iff_eq] at h
      simp only [ltStr, Bool.or_eq_true, decide_eq_true_eq, Bool.and_eq_true,
        beq_iff_eq]
      rcases h with h | ⟨he, hle⟩
      · exact Or.inl h
      · subst he
        refine Or.inr ⟨rfl, ih hle ?_⟩
        intro hys
        exact hne (by rw [hys])

theorem insertByKey_perm {α : Type} (key : α → List Nat) (x : α) (l : List α) :
    (insertByKey key x l).Perm (x :: l) := by
  induction l with
  | nil => simp [insertByKey]
  | cons y ys ih =>
    unfold insertByKey
    by_cases h : leStr (key x) (key y) = true
    · rw [if_pos h]
    · rw [if_neg h]
      exact (ih.cons y).trans (List.Perm.swap x y ys)

theorem sortByKey_perm {α : Type} (key : α → List Nat) (l : List α) :
    (sortByKey key l).Perm l := by
  induction l with
  | nil => simp [sortByKey]
  | cons x xs ih =>
    exact (insertByKey_perm key x (sortByKey key xs)).trans (ih.cons x)

theorem sorted_insertByKey {α : Type} (key : α → List Nat) (x : α) {l : List α}
    (hl : l.Pairwise (fun a b => leStr (key a) (key b) = true)) :
    (insertByKey key x l).Pairwise (fun a b => leStr (key a) (key b) = true) := by
  induction l with
  | nil => simp [insertByKey]
  | cons y ys ih =>
    rcases List.pairwise_cons.mp hl with ⟨hy, hys⟩
    unfold insertByKey
    by_cases h : leStr (key x) (key y) = true
    · rw [if_pos h]
      refine List.pairwise_cons.mpr ⟨?_, hl⟩
      intro z hz
      rcases List.mem_cons.mp hz with hz | hz
      · subst hz; exact h
      · exact leStr_trans h (hy z hz)
    · rw [if_neg h]
      have hyx : leStr (key y) (key x) = true := by
        rcases leStr_total (key x) (key y) with h2 | h2
        · exact absurd h2 h
        · exact h2
      refine List.pairwise_cons.mpr ⟨?_, ih hys⟩
      intro z hz
      have hz2 : z ∈ x :: ys := (insertByKey_perm key x ys).mem_iff.mp hz
      rcases List.mem_cons.mp hz2 with hz2 | hz2
      · subst hz2; exact hyx
      · exact hy z hz2

theorem sorted_sortByKey {α : Type} (key : α → List Nat) (l : List α) :
    (sortByKey key l).Pairwise (fun a b => leStr (key a) (key b) = true) := by
  induction l with
  | nil => simp [sortByKey]
  | cons x xs ih => exact sorted_insertByKey key x ih

/-- A permutation with duplicate-free keys has a unique key-sorted order. -/
theorem sortByKey_eq_of_perm {α : Type} (key : α → List Nat) {l1 l2 : List α}
    (hp : l1.Perm l2) (hn : (l1.map key).Nodup) :
    sortByKey key l1 = sortByKey key l2 := by
  haveI : IsAntisymm α (fun a b => ltStr (key a) (key b) = true) :=
    ⟨fun a b h1 h2 => (ltStr_asymm h1 h2).elim⟩
  have hp1 : (sortByKey key l1).Perm (sortByKey key l2) :=
    (sortByKey_perm key l1).trans (hp.trans (sortByKey_perm key l2).symm)
  have hn1 : ((sortByKey key l1).map key).Nodup :=
    hn.perm ((sortByKey_perm key l1).map key).symm
  have hn2 : ((sortByKey key l2).map key).Nodup :=
    hn1.perm (hp1.map key)
  have strict : ∀ (l : List α), ((l.map key).Nodup) →
      l.Pairwise (fun a b => leStr (key a) (key b) = true) →
      l.Pairwise (fun a b => ltStr (key a) (key b) = true) := by
    intro l hnd hle
    have hne : l.Pairwise (fun a b => key a ≠ key b) := List.pairwise_map.mp hnd
    exact (hle.and hne).imp (fun h => ltStr_of_leStr_ne h.1 h.2)
  exact List.eq_of_perm_of_sorted hp1
    (strict _ hn1 (sorted_sortByKey key l1))
    (strict _ hn2 (sorted_sortByKey key l2))

/-- C7: with a fixed source tree (up to filesystem enumeration order of the
globbed node and card files, whose paths are distinct), a fixed clock and a
fixed commit environment value, two full runs produce byte-identical
output documents — `codex.json`, `index.json` and the conditional cards,
tokens and cosmology artifacts. -/
theorem C7_byte_identical_outputs (loads : List Nat → Option JVal)
    (env : Option (List Nat)) (clock : Clock) (t1 t2 : SrcTree)
    (hnp : t1.nodeFiles.Perm t2.nodeFiles)
    (hnn : (t1.nodeFiles.map Prod.fst).Nodup)
    (hcp : t1.cardFiles.Perm t2.cardFiles)
    (hcn : (t1.cardFiles.map Prod.fst).Nodup)
    (hl : t1.ledgers = t2.ledgers) (ht : t1.tokens = t2.tokens)
    (hc : t1.cosmo = t2.cosmo) :
    main_run loads env clock t1 = main_run loads env clock t2 := by
  have hn := sortByKey_eq_of_perm Prod.fst hnp hnn
  have hcs := sortByKey_eq_of_perm Prod.fst hcp hcn
  unfold main_run collect_nodes
  rw [hn, hcs, hl, ht, hc]

theorem C7_byte_identical_outputs_witness :
    main_run loadsNone none clockW treeD1 = main_run loadsNone none clockW treeD2 :=
  C7_byte_identical_outputs loadsNone none clockW treeD1 treeD2
    (by decide) (by decide) (by decide) (by decide) rfl rfl rfl

theorem except_bind_ok {α β : Type} (a : α) (f : α → Except Err β) :
    (Except.ok a >>= f) = f a := rfl

theorem except_bind_err {α β : Type} (e : Err) (f : α → Except Err β) :
    ((Except.error e : Except Err α) >>= f) = .error e := rfl

/-- Fold invariant for `Except`-valued folds: a step-preserved property of
the accumulator holds for the result, and when every element satisfies `Q`
and steps can only fail with schema errors, so does the fold. -/
theorem foldlM_except {β γ : Type} (f : β → γ → Except Err β) (P : β → Prop)
    (Q : γ → Prop)
    (step_ok : ∀ b a b', Q a → P b → f b a = .ok b' → P b')
    (step_err : ∀ b a e, Q a → P b → f b a = .error e → ∃ m, e = Err.schema m) :
    ∀ (l : List γ) (b : β), (∀ a ∈ l, Q a) → P b →
      (∀ res, l.foldlM f b = .ok res → P res) ∧
      (∀ e, l.foldlM f b = .error e → ∃ m, e = Err.schema m) := by
  intro l
  induction l with
  | nil =>
    intro b _ hb
    constructor
    · intro res h
      rw [show List.foldlM f b [] = .ok b from rfl] at h
      cases h
      exact hb
    · intro e h
      rw [show List.foldlM f b [] = .ok b from rfl] at h
      cases h
  | cons a l ih =>
    intro b hQ hb
    have hQa : Q a := hQ a (by simp)
    have hQl : ∀ x ∈ l, Q x := fun x hx => hQ x (by simp [hx])
    constructor
    · intro res h
      rw [List.foldlM_cons] at h
      rcases hfa : f b a with e | b'
      · rw [hfa, except_bind_err] at h
        cases h
      · rw [hfa, except_bind_ok] at h
        exact (ih b' hQl (step_ok b a b' hQa hb hfa)).1 res h
    · intro e h
      rw [List.foldlM_cons] at h
      rcases hfa : f b a with e' | b'
      · rw [hfa, except_bind_err] at h
        cases h
        exact step_err b a e hQa hb hfa
      · rw [hfa, except_bind_ok] at h
        exact (ih b' hQl (step_ok b a b' hQa hb hfa)).2 e h

theorem getKey?_ensureKey_ne {fs : List (List Nat × JVal)} {k k2 : List Nat}
    (d : JVal) (h : k ≠ k2) :
    getKey? (ensureKey fs k d) k2 = getKey? fs k2 := by
  unfold ensureKey
  by_cases hk : hasKey fs k
  · rw [if_pos hk]
  · rw [if_neg hk]
    rcases hg : getKey? fs k2 with _ | v
    · rw [getKey?_append_right _ (by simp [hasKey, hg])]
      simp [getKey?, h]
    · exact getKey?_append_left _ hg

/-- Everything a successful `normalise_node` tells us. -/
theorem normalise_ok_elim {data : JVal} {source : List Nat}
    {env : Option (List Nat)} {clock : Clock} {node : JVal}
    (h : normalise_node data source env clock = .ok node) :
    ∃ fs pf ss, data = .obj fs ∧
      getKey? (ensureKey fs provK (.obj [])) provK = some (.obj pf) ∧
      getKey? (ensureKey pf srcK (.arr [])) srcK = some (.arr ss) ∧
      node = .obj (setKey (ensureKey fs provK (.obj [])) provK
        (.obj (setKey (ensureKey pf srcK (.arr [])) srcK
          (.arr (ss ++ [provEntry source (commitOf env) (timestampOf clock)]))))) := by
  rcases data with _ | b | n | sv | xs | fs
  case obj =>
    simp only [normalise_node] at h
    rcases h1 : getKey? (ensureKey fs provK (.obj [])) provK with _ | v
    · simp only [h1] at h
      cases h
    · rcases v with _ | b2 | n2 | s2 | x2 | pf
      case obj =>
        simp only [h1] at h
        rcases h2 : getKey? (ensureKey pf srcK (.arr [])) srcK with _ | w
        · simp only [h2] at h
          cases h
        · rcases w with _ | b3 | n3 | s3 | ss | f3
          case arr =>
            simp only [h2] at h
            cases h
            exact ⟨fs, pf, ss, rfl, h1, h2, rfl⟩
          all_goals simp only [h2] at h
          all_goals cases h
      all_goals simp only [h1] at h
      all_goals cases h
  all_goals simp only [normalise_node] at h
  all_goals cases h

/-- Everything a successful `append_only_merge` tells us. -/
theorem merge_ok_elim {cur inc merged : JVal}
    (h : append_only_merge cur inc = .ok merged) :
    ∃ cf inf, cur = .obj cf ∧ inc = .obj inf ∧
      ((nodes_equal cf inf = true ∧ ∃ pf cs is2,
          getKey? (ensureKey cf provK (.obj [])) provK = some (.obj pf) ∧
          getKey? (ensureKey pf srcK (.arr [])) srcK = some (.arr cs) ∧
          incomingSources inf = .ok is2 ∧
          merged = .obj (setKey (ensureKey cf provK (.obj [])) provK
            (.obj (setKey (ensureKey pf srcK (.arr [])) srcK (.arr (cs ++ is2)))))) ∨
       (nodes_equal cf inf = false ∧ ∃ vs,
          getKey? (ensureKey cf verK (.arr [])) verK = some (.arr vs) ∧
          ((scanHash vs (sha256_bytes (dumps (.obj inf))) = .ok true ∧
            merged = .obj (ensureKey cf verK (.arr []))) ∨
           (scanHash vs (sha256_bytes (dumps (.obj inf))) = .ok false ∧
            merged = .obj (setKey (ensureKey cf verK (.arr [])) verK
              (.arr (vs ++ [.obj (setKey inf hashK
                (.str (sha256_bytes (dumps (.obj inf)))))]))))))) := by
  rcases cur with _ | b | n | sv | xs | cf
  case obj =>
    rcases inc with _ | b2 | n2 | s2 | x2 | inf
    case obj =>
      refine ⟨cf, inf, rfl, rfl, ?_⟩
      simp only [append_only_merge] at h
      by_cases he : nodes_equal cf inf = true
      · left
        rw [if_pos he] at h
        refine ⟨he, ?_⟩
        rcases h1 : getKey? (ensureKey cf provK (.obj [])) provK with _ | v
        · simp only [h1] at h
          cases h
        · rcases v with _ | vb | vn | vs2 | vx | pf
          · simp only [h1] at h
            cases h
          · simp only [h1] at h
            cases h
          · simp only [h1] at h
            cases h
          · simp only [h1] at h
            cases h
          · simp only [h1] at h
            cases h
          · simp only [h1] at h
            rcases h2 : getKey? (ensureKey pf srcK (.arr [])) srcK with _ | w
            · simp only [h2] at h
              cases h
            · rcases w with _ | wb | wn | ws | cs | wf
              · simp only [h2] at h
                cases h
              · simp only [h2] at h
                cases h
              · simp only [h2] at h
                cases h
              · simp only [h2] at h
                cases h
              · simp only [h2] at h
                rcases h3 : incomingSources inf with e | is2
                · rw [h3] at h
                  cases h
                · rw [h3] at h
                  cases h
                  exact ⟨pf, cs, is2, rfl, h2, rfl, rfl⟩
              · simp only [h2] at h
                cases h
      · right
        have he' : nodes_equal cf inf = false := by simpa using he
        rw [if_neg (by simp [he'])] at h
        refine ⟨he', ?_⟩
        rcases h1 : getKey? (ensureKey cf verK (.arr [])) verK with _ | v
        · simp only [h1] at h
          cases h
        · rcases v with _ | vb | vn | vs2 | vs | vf
          · simp only [h1] at h
            cases h
          · simp only [h1] at h
            cases h
          · simp only [h1] at h
            cases h
          · simp only [h1] at h
            cases h
          · simp only [h1] at h
            refine ⟨vs, rfl, ?_⟩
            rcases h2 : scanHash vs (sha256_bytes (dumps (.obj inf))) with e | bb
            · rw [h2] at h
              cases h
            · rw [h2] at h
              rcases bb
              · right
                cases h
                exact ⟨rfl, rfl⟩
              · left
                cases h
                exact ⟨rfl, rfl⟩
          · simp only [h1] at h
            cases h
    all_goals simp only [append_only_merge] at h
    all_goals cases h
  all_goals simp only [append_only_merge] at h
  all_goals cases h

theorem sourcesOf_eq_of_elim {cf pf : List (List Nat × JVal)} {cs : List JVal}
    (h1 : getKey? (ensureKey cf provK (.obj [])) provK = some (.obj pf))
    (h2 : getKey? (ensureKey pf srcK (.arr [])) srcK = some (.arr cs)) :
    sourcesOf (.obj cf) = cs := by
  by_cases hp : hasKey cf provK
  · rw [show ensureKey cf provK (.obj []) = cf by simp [ensureKey, hp]] at h1
    by_cases hq : hasKey pf srcK
    · rw [show ensureKey pf srcK (.arr []) = pf by simp [ensureKey, hq]] at h2
      simp only [sourcesOf, h1, h2]
    · have hq' : hasKey pf srcK = false := by simpa using hq
      rw [show ensureKey pf srcK (.arr []) = pf ++ [(srcK, .arr [])] by
        simp [ensureKey, hq'], getKey?_append_right _ hq'] at h2
      simp only [getKey?, if_pos rfl] at h2
      cases h2
      simp only [sourcesOf, h1, getKey?_none hq']
  · have hp' : hasKey cf provK = false := by simpa using hp
    rw [show ensureKey cf provK (.obj []) = cf ++ [(provK, .obj [])] by
      simp [ensureKey, hp'], getKey?_append_right _ hp'] at h1
    simp only [getKey?, if_pos rfl] at h1
    cases h1
    rw [show ensureKey ([] : List (List Nat × JVal)) srcK (.arr []) =
      [(srcK, .arr [])] by simp [ensureKey, hasKey, getKey?]] at h2
    simp only [getKey?, if_pos rfl] at h2
    cases h2
    simp only [sourcesOf, getKey?_none hp']

theorem versionsOf_eq_of_elim {cf : List (List Nat × JVal)} {vs : List JVal}
    (h1 : getKey? (ensureKey cf verK (.arr [])) verK = some (.arr vs)) :
    versionsOf (.obj cf) = vs := by
  by_cases hv : hasKey cf verK
  · rw [show ensureKey cf verK (.arr []) = cf by simp [ensureKey, hv]] at h1
    simp only [versionsOf, h1]
  · have hv' : hasKey cf verK = false := by simpa using hv
    rw [show ensureKey cf verK (.arr []) = cf ++ [(verK, .arr [])] by
      simp [ensureKey, hv'], getKey?_append_right _ hv'] at h1
    simp only [getKey?, if_pos rfl] at h1
    cases h1
    simp only [versionsOf, getKey?_none hv']

theorem nodeShaped_of_parts {fs pf : List (List Nat × JVal)} {l : List JVal}
    (h1 : getKey? fs provK = some (.obj pf))
    (h2 : getKey? pf srcK = some (.arr l)) (h3 : l ≠ []) :
    nodeShaped (.obj fs) = true := by
  simp only [nodeShaped, h1, h2]
  simpa [List.isEmpty_eq_false] using h3

theorem nodeShaped_elim {fs : List (List Nat × JVal)}
    (h : nodeShaped (.obj fs) = true) :
    ∃ pf l, getKey? fs provK = some (.obj pf) ∧
      getKey? pf srcK = some (.arr l) ∧ l ≠ [] := by
  simp only [nodeShaped] at h
  rcases h1 : getKey? fs provK with _ | v1
  · simp only [h1] at h
    cases h
  · rcases v1 with _ | b1 | n1 | s1 | x1 | pf <;> simp only [h1] at h <;> try cases h
    rcases h2 : getKey? pf srcK with _ | v2
    · simp only [h2] at h
      cases h
    · rcases v2 with _ | b2 | n2 | s2 | l | f2 <;> simp only [h2] at h <;> try cases h
      exact ⟨pf, l, rfl, h2, by simpa [List.isEmpty_eq_false] using h⟩

theorem sourcesOf_of_shaped {fs pf : List (List Nat × JVal)} {l : List JVal}
    (h1 : getKey? fs provK = some (.obj pf))
    (h2 : getKey? pf srcK = some (.arr l)) :
    sourcesOf (.obj fs) = l := by
  simp only [sourcesOf, h1, h2]

theorem normalise_ok_props {data : JVal} {source : List Nat} {env : Option (List Nat)}
    {clock : Clock} {node : JVal}
    (h : normalise_node data source env clock = .ok node) :
    nodeShaped node = true ∧
    sourcesOf node = sourcesOf data ++
      [provEntry source (commitOf env) (timestampOf clock)] ∧
    ∃ fs nf, data = .obj fs ∧ node = .obj nf ∧
      ∀ k, k ≠ provK → getKey? nf k = getKey? fs k := by
  obtain ⟨fs, pf, ss, hd, h1, h2, hn⟩ := normalise_ok_elim h
  subst hd
  subst hn
  refine ⟨?_, ?_, ?_⟩
  · exact nodeShaped_of_parts (getKey?_setKey_self _ _ _) (getKey?_setKey_self _ _ _)
      (by simp)
  · rw [sourcesOf_eq_of_elim h1 h2]
    simp only [sourcesOf, getKey?_setKey_self]
  · refine ⟨fs, _, rfl, rfl, fun k hk => ?_⟩
    rw [getKey?_setKey_ne _ _ (Ne.symm hk), getKey?_ensureKey_ne _ (Ne.symm hk)]

theorem scanHash_false_hashTag {vs : List JVal} {h : List Nat}
    (hs : scanHash vs h = .ok false) : ∀ w ∈ vs, hashTag w ≠ some h := by
  induction vs with
  | nil => intro w hw; cases hw
  | cons w rest ih =>
    intro w' hw'
    rcases w with _ | b | n | s | xs | fs
    case obj =>
      simp only [scanHash] at hs
      by_cases hp : pyEq ((getKey? fs hashK).getD .null) (.str h) = true
      · rw [if_pos hp] at hs
        cases hs
      · rw [if_neg hp] at hs
        rcases List.mem_cons.mp hw' with hw | hw
        · subst hw
          intro htag
          apply hp
          simp only [hashTag] at htag
          rcases hg : getKey? fs hashK with _ | v
          · rw [hg] at htag
            cases htag
          · rcases v with _ | b2 | n2 | s2 | x2 | f2 <;> rw [hg] at htag <;>
              try cases htag
            exact pyEq_refl _
        · exact ih hs w' hw
    all_goals simp only [scanHash] at hs
    all_goals cases hs

theorem hashTag_tagged (inf : List (List Nat × JVal)) (h : List Nat) :
    hashTag (.obj (setKey inf hashK (.str h))) = some h := by
  simp only [hashTag, getKey?_setKey_self]

/-- `append_only_merge` only appends: sources and versions of the result
extend those of the current node, and the no-duplicate-hash property is
preserved. -/
theorem merge_sources_versions {cur inc merged : JVal}
    (h : append_only_merge cur inc = .ok merged) :
    (∃ suf, sourcesOf merged = sourcesOf cur ++ suf) ∧
    (∃ suf, versionsOf merged = versionsOf cur ++ suf) ∧
    ((hashesOf cur).Nodup → (hashesOf merged).Nodup) := by
  obtain ⟨cf, inf, hc, hi, hcase⟩ := merge_ok_elim h
  subst hc
  subst hi
  rcases hcase with ⟨heq, pf, cs, is2, h1, h2, h3, hm⟩ | ⟨hne, vs, h1, hcase2⟩
  · subst hm
    have hsrc : sourcesOf (.obj cf) = cs := sourcesOf_eq_of_elim h1 h2
    have hsrcm : sourcesOf (.obj (setKey (ensureKey cf provK (.obj [])) provK
        (.obj (setKey (ensureKey pf srcK (.arr [])) srcK (.arr (cs ++ is2)))))) =
        cs ++ is2 := by
      simp only [sourcesOf, getKey?_setKey_self]
    have hverm : versionsOf (.obj (setKey (ensureKey cf provK (.obj [])) provK
        (.obj (setKey (ensureKey pf srcK (.arr [])) srcK (.arr (cs ++ is2)))))) =
        versionsOf (.obj cf) := by
      simp only [versionsOf,
        getKey?_setKey_ne _ _ provK_ne_verK, getKey?_ensureKey_ne _ provK_ne_verK]
    refine ⟨⟨is2, by rw [hsrcm, hsrc]⟩, ⟨[], by rw [hverm]; simp⟩, ?_⟩
    intro hnd
    unfold hashesOf
    rw [hverm]
    exact hnd
  · have hver : versionsOf (.obj cf) = vs := versionsOf_eq_of_elim h1
    rcases hcase2 with ⟨hsc, hm⟩ | ⟨hsc, hm⟩
    · subst hm
      have hsrcm : sourcesOf (.obj (ensureKey cf verK (.arr []))) =
          sourcesOf (.obj cf) := by
        simp only [sourcesOf, getKey?_ensureKey_ne _ (Ne.symm provK_ne_verK)]
      have hverm : versionsOf (.obj (ensureKey cf verK (.arr []))) = vs := by
        simp only [versionsOf, h1]
      refine ⟨⟨[], by rw [hsrcm]; simp⟩, ⟨[], by rw [hverm, hver]; simp⟩, ?_⟩
      intro hnd
      unfold hashesOf
      rw [hverm, ← hver]
      exact hnd
    · subst hm
      have hsrcm : sourcesOf (.obj (setKey (ensureKey cf verK (.arr [])) verK
          (.arr (vs ++ [.obj (setKey inf hashK
            (.str (sha256_bytes (dumps (.obj inf)))))])))) =
          sourcesOf (.obj cf) := by
        simp only [sourcesOf, getKey?_setKey_ne _ _ (Ne.symm provK_ne_verK),
          getKey?_ensureKey_ne _ (Ne.symm provK_ne_verK)]
      have hverm : versionsOf (.obj (setKey (ensureKey cf verK (.arr [])) verK
          (.arr (vs ++ [.obj (setKey inf hashK
            (.str (sha256_bytes (dumps (.obj inf)))))])))) =
          vs ++ [.obj (setKey inf hashK
            (.str (sha256_bytes (dumps (.obj inf)))))] := by
        simp only [versionsOf, getKey?_setKey_self]
      refine ⟨⟨[], by rw [hsrcm]; simp⟩,
        ⟨[.obj (setKey inf hashK (.str (sha256_bytes (dumps (.obj inf)))))],
         by rw [hverm, hver]⟩, ?_⟩
      intro hnd
      unfold hashesOf
      rw [hverm]
      rw [List.filterMap_append]
      simp only [List.filterMap, hashTag_tagged]
      rw [List.nodup_append]
      refine ⟨by rw [hashesOf, hver] at hnd; exact hnd, by simp, ?_⟩
      intro x hx hx2
      simp at hx2
      subst hx2
      rcases List.mem_filterMap.mp hx with ⟨w, hw, htag⟩
      exact scanHash_false_hashTag hsc w hw htag

theorem merge_shaped {cur inc merged : JVal}
    (h : append_only_merge cur inc = .ok merged)
    (hs : nodeShaped cur = true) : nodeShaped merged = true := by
  obtain ⟨cf, inf, hc, hi, hcase⟩ := merge_ok_elim h
  subst hc
  subst hi
  obtain ⟨pf0, l0, hp0, hq0, hl0⟩ := nodeShaped_elim hs
  rcases hcase with ⟨heq, pf, cs, is2, h1, h2, h3, hm⟩ | ⟨hne, vs, h1, hcase2⟩
  · subst hm
    have he1 : ensureKey cf provK (.obj []) = cf := by
      simp [ensureKey, hasKey, hp0]
    rw [he1, hp0] at h1
    cases h1
    have he2 : ensureKey pf0 srcK (.arr []) = pf0 := by
      simp [ensureKey, hasKey, hq0]
    rw [he2, hq0] at h2
    cases h2
    rw [he1, he2]
    exact nodeShaped_of_parts (getKey?_setKey_self _ _ _) (getKey?_setKey_self _ _ _)
      (by simp [hl0])
  · rcases hcase2 with ⟨hsc, hm⟩ | ⟨hsc, hm⟩ <;> subst hm
    · refine nodeShaped_of_parts (?_ : getKey? (ensureKey cf verK (.arr [])) provK =
        some (.obj pf0)) hq0 hl0
      rw [getKey?_ensureKey_ne _ (Ne.symm provK_ne_verK)]
      exact hp0
    · refine nodeShaped_of_parts (?_ : getKey? _ provK = some (.obj pf0)) hq0 hl0
      rw [getKey?_setKey_ne _ _ (Ne.symm provK_ne_verK),
        getKey?_ensureKey_ne _ (Ne.symm provK_ne_verK)]
      exact hp0

theorem foldlM_except_ok {β γ : Type} (f : β → γ → Except Err β) (P : β → Prop)
    (step_ok : ∀ b a b', P b → f b a = .ok b' → P b') :
    ∀ (l : List γ) (b : β), P b → ∀ res, l.foldlM f b = .ok res → P res := by
  intro l
  induction l with
  | nil =>
    intro b hb res h
    rw [show List.foldlM f b [] = .ok b from rfl] at h
    cases h
    exact hb
  | cons a l ih =>
    intro b hb res h
    rw [List.foldlM_cons] at h
    rcases hfa : f b a with e | b'
    · rw [hfa, except_bind_err] at h
      cases h
    · rw [hfa, except_bind_ok] at h
      exact ih b' (step_ok b a b' hb hfa) res h

theorem mapGet?_mem {m : List (JVal × JVal)} {k v : JVal}
    (h : mapGet? m k = some v) : ∃ k', (k', v) ∈ m := by
  induction m with
  | nil => cases h
  | cons kv rest ih =>
    obtain ⟨k', v'⟩ := kv
    by_cases hp : pyEq k' k = true
    · rw [show mapGet? ((k', v') :: rest) k = some v' by simp [mapGet?, hp]] at h
      cases h
      exact ⟨k', by simp⟩
    · rw [show mapGet? ((k', v') :: rest) k = mapGet? rest k by
        simp [mapGet?, hp]] at h
      obtain ⟨k2, hk2⟩ := ih h
      exact ⟨k2, by simp [hk2]⟩

theorem mapSet_mem {m : List (JVal × JVal)} {k v : JVal} :
    ∀ kv ∈ mapSet m k v, kv.2 = v ∨ kv ∈ m := by
  induction m with
  | nil =>
    intro kv hkv
    simp [mapSet] at hkv
    simp [hkv]
  | cons kv0 rest ih =>
    obtain ⟨k', v'⟩ := kv0
    intro kv hkv
    by_cases hp : pyEq k' k = true
    · rw [show mapSet ((k', v') :: rest) k v = (k', v) :: rest by
        simp [mapSet, hp]] at hkv
      rcases List.mem_cons.mp hkv with hkv | hkv
      · subst hkv
        exact Or.inl rfl
      · exact Or.inr (by simp [hkv])
    · rw [show mapSet ((k', v') :: rest) k v = (k', v') :: mapSet rest k v by
        simp [mapSet, hp]] at hkv
      rcases List.mem_cons.mp hkv with hkv | hkv
      · subst hkv
        exact Or.inr (by simp)
      · rcases ih kv hkv with h2 | h2
        · exact Or.inl h2
        · exact Or.inr (by simp [h2])

theorem mapGet?_none_all {m : List (JVal × JVal)} {k : JVal}
    (h : mapGet? m k = none) : ∀ kv ∈ m, pyEq kv.1 k = false := by
  induction m with
  | nil => intro kv hkv; cases hkv
  | cons kv0 rest ih =>
    obtain ⟨k', v'⟩ := kv0
    intro kv hkv
    by_cases hp : pyEq k' k = true
    · rw [show mapGet? ((k', v') :: rest) k = some v' by simp [mapGet?, hp]] at h
      cases h
    · rw [show mapGet? ((k', v') :: rest) k = mapGet? rest k by
        simp [mapGet?, hp]] at h
      rcases List.mem_cons.mp hkv with hkv | hkv
      · subst hkv
        simpa using hp
      · exact ih h kv hkv

theorem mapSet_fst {m : List (JVal × JVal)} {k cur : JVal} (v : JVal)
    (h : mapGet? m k = some cur) :
    (mapSet m k v).map Prod.fst = m.map Prod.fst := by
  induction m with
  | nil => cases h
  | cons kv0 rest ih =>
    obtain ⟨k', v'⟩ := kv0
    by_cases hp : pyEq k' k = true
    · rw [show mapSet ((k', v') :: rest) k v = (k', v) :: rest by simp [mapSet, hp]]
      simp
    · rw [show mapSet ((k', v') :: rest) k v = (k', v') :: mapSet rest k v by
        simp [mapSet, hp]]
      rw [show mapGet? ((k', v') :: rest) k = mapGet? rest k by
        simp [mapGet?, hp]] at h
      simp [ih h]

/-- The per-fragment pipeline step preserves "every compiled node is
shaped". -/
theorem ingestValue_shaped {env : Option (List Nat)} {clock : Clock}
    {compiled : List (JVal × JVal)} {data : JVal} {source : List Nat}
    {compiled' : List (JVal × JVal)}
    (hP : ∀ kv ∈ compiled, nodeShaped kv.2 = true)
    (h : ingestValue env clock compiled data source = .ok compiled') :
    ∀ kv ∈ compiled', nodeShaped kv.2 = true := by
  simp only [ingestValue] at h
  rcases hg : pyGet data idK with e | idv
  · simp only [hg] at h
    cases h
  · simp only [hg] at h
    by_cases ht : truthy idv = true
    · rw [if_neg (by simp [ht])] at h
      rcases hn : normalise_node data source env clock with e | node
      · simp only [hn] at h
        cases h
      · simp only [hn] at h
        rcases hv : validate_node node source with e | u
        · simp only [hv] at h
          cases h
        · simp only [hv] at h
          obtain ⟨hshape, _, _⟩ := normalise_ok_props hn
          rcases hm : mapGet? compiled idv with _ | cur
          · simp only [hm] at h
            cases h
            intro kv hkv
            rcases List.mem_append.mp hkv with hkv | hkv
            · exact hP kv hkv
            · simp at hkv
              subst hkv
              exact hshape
          · simp only [hm] at h
            rcases hmg : append_only_merge cur node with e | merged
            · simp only [hmg] at h
              cases h
            · simp only [hmg] at h
              cases h
              intro kv hkv
              rcases mapSet_mem kv hkv with h2 | h2
              · rw [h2]
                obtain ⟨k', hk'⟩ := mapGet?_mem hm
                exact merge_shaped hmg (hP (k', cur) hk')
              · exact hP kv h2
    · rw [if_pos (by simpa using ht)] at h
      cases h
      exact hP

theorem ingestNodeFile_shaped {env : Option (List Nat)} {clock : Clock}
    {compiled compiled' : List (JVal × JVal)} {pf : List Nat × Option JVal}
    (hP : ∀ kv ∈ compiled, nodeShaped kv.2 = true)
    (h : ingestNodeFile env clock compiled pf = .ok compiled') :
    ∀ kv ∈ compiled', nodeShaped kv.2 = true := by
  obtain ⟨path, content⟩ := pf
  rcases content with _ | d
  · rw [show ingestNodeFile env clock compiled (path, none) = .ok compiled from rfl] at h
    cases h
    exact hP
  · simp only [ingestNodeFile] at h
    by_cases ht : truthy d = true
    · rw [if_neg (by simp [ht])] at h
      exact ingestValue_shaped hP h
    · rw [if_pos (by simpa using ht)] at h
      cases h
      exact hP

theorem ingestLedger_shaped {loads : List Nat → Option JVal}
    {env : Option (List Nat)} {clock : Clock}
    {compiled compiled' : List (JVal × JVal)} {lg : List Nat × Option (List Nat)}
    (hP : ∀ kv ∈ compiled, nodeShaped kv.2 = true)
    (h : ingestLedger loads env clock compiled lg = .ok compiled') :
    ∀ kv ∈ compiled', nodeShaped kv.2 = true := by
  obtain ⟨path, content⟩ := lg
  rcases content with _ | text
  · rw [show ingestLedger loads env clock compiled (path, none) = .ok compiled
      from rfl] at h
    cases h
    exact hP
  · simp only [ingestLedger] at h
    exact foldlM_except_ok _ (fun b => ∀ kv ∈ b, nodeShaped kv.2 = true)
      (fun b a b' hb hs => ingestValue_shaped hb hs)
      (extract_json_blocks loads text) compiled hP compiled' h

theorem collect_nodes_shaped {loads : List Nat → Option JVal}
    {env : Option (List Nat)} {clock : Clock} {t : SrcTree} {res : CollectRes}
    (h : collect_nodes loads env clock t = .ok res) :
    ∀ kv ∈ res.nodes, nodeShaped kv.2 = true := by
  simp only [collect_nodes] at h
  rcases h1 : (sortByKey Prod.fst t.nodeFiles).foldlM (ingestNodeFile env clock) []
    with e | nodes1
  · simp only [h1] at h
    cases h
  · simp only [h1] at h
    rcases h2 : t.ledgers.foldlM (ingestLedger loads env clock) nodes1
      with e | nodes2
    · simp only [h2] at h
      cases h
    · simp only [h2] at h
      cases h
      have hp1 : ∀ kv ∈ nodes1, nodeShaped kv.2 = true :=
        foldlM_except_ok _ (fun b => ∀ kv ∈ b, nodeShaped kv.2 = true)
          (fun b a b' hb hs => ingestNodeFile_shaped hb hs)
          _ [] (by intro kv hkv; cases hkv) nodes1 h1
      exact foldlM_except_ok _ (fun b => ∀ kv ∈ b, nodeShaped kv.2 = true)
        (fun b a b' hb hs => ingestLedger_shaped hb hs)
        _ nodes1 hp1 nodes2 h2

theorem natDigitsAux_digits : ∀ fuel m, ∀ c ∈ natDigitsAux fuel m,
    48 ≤ c ∧ c ≤ 57 := by
  intro fuel
  induction fuel with
  | zero => intro m c hc; cases hc
  | succ f ih =>
    intro m c hc
    cases m with
    | zero => cases hc
    | succ k =>
      simp only [natDigitsAux] at hc
      rcases List.mem_append.mp hc with hc | hc
      · exact ih _ c hc
      · simp at hc
        omega

theorem natStr_digits (n : Nat) : ∀ c ∈ natStr n, 48 ≤ c ∧ c ≤ 57 := by
  unfold natStr
  by_cases h : n = 0
  · simp [h]
  · rw [if_neg h]
    exact natDigitsAux_digits n n

theorem padNum_digits (w n : Nat) : ∀ c ∈ padNum w n, 48 ≤ c ∧ c ≤ 57 := by
  intro c hc
  rcases List.mem_append.mp hc with hc | hc
  · rw [List.eq_of_mem_replicate hc]
    omega
  · exact natStr_digits n c hc

theorem isoBase_no_plus (c : Clock) : ∀ ch ∈ isoBase c, ch ≠ 43 := by
  intro ch hch hEq
  subst hEq
  unfold isoBase at hch
  simp only [List.append_assoc, List.mem_append, List.mem_cons,
    List.not_mem_nil, or_false] at hch
  rcases hch with h | h | h | h | h | h | h | h | h | h | h | h
  all_goals try (have hpn := padNum_digits _ _ 43 h; omega)
  all_goals try omega
  by_cases hm : c.micro = 0
  · simp [hm] at h
  · simp only [hm, if_false, List.mem_append, List.mem_cons,
      List.not_mem_nil, or_false] at h
    rcases h with h | h
    · omega
    · have := padNum_digits 6 c.micro 43 h
      omega

theorem pyReplaceAux_nil (pat repl : List Nat) :
    ∀ fuel, pyReplaceAux pat repl fuel [] = [] := by
  intro fuel
  cases fuel <;> rfl

theorem pyReplace_only_suffix {pat repl : List Nat} (hpat : pat ≠ [])
    (hhead : pat.head? = some 43) :
    ∀ (D : List Nat), (∀ ch ∈ D, ch ≠ 43) →
    ∀ fuel, D.length + pat.length ≤ fuel →
      pyReplaceAux pat repl fuel (D ++ pat) = D ++ repl := by
  intro D
  induction D with
  | nil =>
    intro _ fuel hf
    simp only [List.nil_append]
    have hlen := List.length_pos.mpr hpat
    cases fuel with
    | zero =>
      simp only [List.length_nil, Nat.zero_add] at hf
      omega
    | succ f =>
      rcases hp : pat with _ | ⟨ch, rest⟩
      · exact absurd hp hpat
      · simp only [pyReplaceAux]
        rw [if_pos (List.isPrefixOf_iff_prefix.mpr (List.prefix_refl _))]
        rw [List.drop_length, pyReplaceAux_nil]
        simp
  | cons d D' ih =>
    intro hD fuel hf
    cases fuel with
    | zero => simp at hf
    | succ f =>
      simp only [List.cons_append, pyReplaceAux]
      have hne : pat.isPrefixOf (d :: (D' ++ pat)) = false := by
        rcases hp : pat with _ | ⟨ch, rest⟩
        · exact absurd hp hpat
        · have hc : ch = 43 := by
            rw [hp] at hhead
            simpa using hhead
          have hd : d ≠ 43 := hD d (by simp)
          subst hc
          simp [List.isPrefixOf]
          intro he
          exact absurd he.symm hd
      rw [if_neg (by simp [hne])]
      have hstep := ih (fun ch hch => hD ch (by simp [hch])) f (by
        simp only [List.length_cons] at hf
        omega)
      show d :: pyReplaceAux pat repl f (D' ++ pat) = d :: (D' ++ repl)
      rw [hstep]

theorem timestampOf_ends_Z (c : Clock) : ∃ l, timestampOf c = l ++ [90] := by
  refine ⟨isoBase c, ?_⟩
  unfold timestampOf isoFmt pyReplace
  rw [show (isoBase c ++ bs "+00:00").length =
    (isoBase c).length + (bs "+00:00").length from List.length_append _ _]
  rw [pyReplace_only_suffix (by decide) (by decide) (isoBase c) (isoBase_no_plus c)
    _ (Nat.le_refl _)]
  rfl

/-- C9: every node in the compiled mapping carries a nonempty
`provenance.sources` list; the entry `normalise_node` appends is exactly
the dict with the four fields `path` (the source file path), `commit`
(`GITHUB_SHA` truncated to 12 characters, empty when unset), `timestamp`
(the frozen UTC clock in ISO-8601, ending in `Z`) and
`compiler = "compile_codex.py@v1"`. -/
theorem C9_provenance_entries (loads : List Nat → Option JVal)
    (env : Option (List Nat)) (clock : Clock) :
    (∀ t res, collect_nodes loads env clock t = .ok res →
       ∀ kv ∈ res.nodes, sourcesOf kv.2 ≠ []) ∧
    (∀ data source node, normalise_node data source env clock = .ok node →
       sourcesOf node = sourcesOf data ++
         [provEntry source (commitOf env) (timestampOf clock)]) ∧
    (∀ source commit ts, provEntry source commit ts =
       .obj [(bs "path", .str source), (bs "commit", .str commit),
             (bs "timestamp", .str ts),
             (bs "compiler", .str (bs "compile_codex.py@v1"))] ∧
       topKeys (provEntry source commit ts) =
         [bs "path", bs "commit", bs "timestamp", bs "compiler"]) ∧
    (∃ l, timestampOf clock = l ++ [90]) ∧
    commitOf none = [] ∧ (∀ sha, commitOf (some sha) = sha.take 12) := by
  refine ⟨?_, ?_, ?_, timestampOf_ends_Z clock, rfl, fun _ => rfl⟩
  · intro t res hc kv hkv
    have hs := collect_nodes_shaped hc kv hkv
    rcases hveq : kv.2 with _ | b | n | s | xs | fs
    all_goals rw [hveq] at hs
    all_goals try simp [nodeShaped] at hs
    obtain ⟨pf, l, hp, hq, hl⟩ := nodeShaped_elim hs
    rw [sourcesOf_of_shaped hp hq]
    exact hl
  · intro data source node hn
    exact (normalise_ok_props hn).2.1
  · intro source commit ts
    exact ⟨rfl, rfl⟩

theorem C9_provenance_entries_witness :
    sourcesOf (firstNodeOf (collect_nodes loadsNone none clockW treeD1)) ≠ [] := by
  rcases hcol : collect_nodes loadsNone none clockW treeD1 with e | res
  · have h2 : nodesCount (collect_nodes loadsNone none clockW treeD1) = 2 := by decide
    rw [hcol] at h2
    simp [nodesCount] at h2
  · have h2 : nodesCount (collect_nodes loadsNone none clockW treeD1) = 2 := by decide
    rw [hcol] at h2
    simp only [nodesCount] at h2
    have hne : res.nodes ≠ [] := by
      intro h0
      rw [h0] at h2
      cases h2
    have hmem : res.nodes.headD (.null, .null) ∈ res.nodes := by
      rcases hn : res.nodes with _ | ⟨a, l⟩
      · exact absurd hn hne
      · simp
    have hmain := (C9_provenance_entries loadsNone none clockW).1 treeD1 res hcol
      _ hmem
    simpa [firstNodeOf] using hmain

theorem ingestNodeFile_inv {P : List (JVal × JVal) → Prop}
    {env : Option (List Nat)} {clock : Clock}
    {compiled compiled' : List (JVal × JVal)} {pf : List Nat × Option JVal}
    (hstep : ∀ compiled data source compiled', P compiled →
       ingestValue env clock compiled data source = .ok compiled' → P compiled')
    (hP : P compiled) (h : ingestNodeFile env clock compiled pf = .ok compiled') :
    P compiled' := by
  obtain ⟨path, content⟩ := pf
  rcases content with _ | d
  · rw [show ingestNodeFile env clock compiled (path, none) = .ok compiled from rfl] at h
    cases h
    exact hP
  · simp only [ingestNodeFile] at h
    by_cases ht : truthy d = true
    · rw [if_neg (by simp [ht])] at h
      exact hstep compiled d path compiled' hP h
    · rw [if_pos (by simpa using ht)] at h
      cases h
      exact hP

theorem ingestLedger_inv {P : List (JVal × JVal) → Prop}
    {loads : List Nat → Option JVal} {env : Option (List Nat)} {clock : Clock}
    {compiled compiled' : List (JVal × JVal)} {lg : List Nat × Option (List Nat)}
    (hstep : ∀ compiled data source compiled', P compiled →
       ingestValue env clock compiled data source = .ok compiled' → P compiled')
    (hP : P compiled) (h : ingestLedger loads env clock compiled lg = .ok compiled') :
    P compiled' := by
  obtain ⟨path, content⟩ := lg
  rcases content with _ | text
  · rw [show ingestLedger loads env clock compiled (path, none) = .ok compiled
      from rfl] at h
    cases h
    exact hP
  · simp only [ingestLedger] at h
    exact foldlM_except_ok _ P (fun b a b' hb hs => hstep b a path b' hb hs)
      (extract_json_blocks loads text) compiled hP compiled' h

theorem collect_nodes_inv {loads : List Nat → Option JVal}
    {env : Option (List Nat)} {clock : Clock} {t : SrcTree} {res : CollectRes}
    (P : List (JVal × JVal) → Prop)
    (hstep : ∀ compiled data source compiled', P compiled →
       ingestValue env clock compiled data source = .ok compiled' → P compiled')
    (hnil : P [])
    (h : collect_nodes loads env clock t = .ok res) : P res.nodes := by
  simp only [collect_nodes] at h
  rcases h1 : (sortByKey Prod.fst t.nodeFiles).foldlM (ingestNodeFile env clock) []
    with e | nodes1
  · simp only [h1] at h
    cases h
  · simp only [h1] at h
    rcases h2 : t.ledgers.foldlM (ingestLedger loads env clock) nodes1
      with e | nodes2
    · simp only [h2] at h
      cases h
    · simp only [h2] at h
      cases h
      have hp1 : P nodes1 :=
        foldlM_except_ok _ P (fun b a b' hb hs => ingestNodeFile_inv hstep hb hs)
          _ [] hnil nodes1 h1
      exact foldlM_except_ok _ P (fun b a b' hb hs => ingestLedger_inv hstep hb hs)
        _ nodes1 hp1 nodes2 h2

theorem pairwise_keys_iff (m : List (JVal × JVal)) :
    m.Pairwise (fun a b => pyEq a.1 b.1 = false) ↔
      (m.map Prod.fst).Pairwise (fun a b => pyEq a b = false) := by
  rw [List.pairwise_map]

theorem ingestValue_pairwise {env : Option (List Nat)} {clock : Clock}
    {compiled : List (JVal × JVal)} {data : JVal} {source : List Nat}
    {compiled' : List (JVal × JVal)}
    (hP : compiled.Pairwise (fun a b => pyEq a.1 b.1 = false))
    (h : ingestValue env clock compiled data source = .ok compiled') :
    compiled'.Pairwise (fun a b => pyEq a.1 b.1 = false) := by
  simp only [ingestValue] at h
  rcases hg : pyGet data idK with e | idv
  · simp only [hg] at h
    cases h
  · simp only [hg] at h
    by_cases ht : truthy idv = true
    · rw [if_neg (by simp [ht])] at h
      rcases hn : normalise_node data source env clock with e | node
      · simp only [hn] at h
        cases h
      · simp only [hn] at h
        rcases hv : validate_node node source with e | u
        · simp only [hv] at h
          cases h
        · simp only [hv] at h
          rcases hm : mapGet? compiled idv with _ | cur
          · simp only [hm] at h
            cases h
            rw [List.pairwise_append]
            refine ⟨hP, by simp, ?_⟩
            intro a ha b hb
            simp at hb
            subst hb
            exact mapGet?_none_all hm a ha
          · simp only [hm] at h
            rcases hmg : append_only_merge cur node with e | merged
            · simp only [hmg] at h
              cases h
            · simp only [hmg] at h
              cases h
              rw [pairwise_keys_iff] at hP ⊢
              rw [mapSet_fst merged hm]
              exact hP
    · rw [if_pos (by simpa using ht)] at h
      cases h
      exact hP

/-- C8: the compiled mapping holds exactly one current record per id
(pairwise non-equal keys), and every merge step only appends: the result's
`provenance.sources` and `versions` extend the current node's lists at the
end, and the absence of duplicate `_hash` tags is preserved. -/
theorem C8_append_only_invariants :
    (∀ loads env clock t res, collect_nodes loads env clock t = .ok res →
       res.nodes.Pairwise (fun a b => pyEq a.1 b.1 = false)) ∧
    (∀ cur inc merged, append_only_merge cur inc = .ok merged →
       (∃ suf, sourcesOf merged = sourcesOf cur ++ suf) ∧
       (∃ suf, versionsOf merged = versionsOf cur ++ suf) ∧
       ((hashesOf cur).Nodup → (hashesOf merged).Nodup)) := by
  constructor
  · intro loads env clock t res h
    exact collect_nodes_inv (fun m => m.Pairwise (fun a b => pyEq a.1 b.1 = false))
      (fun c d s c' hb hs => ingestValue_pairwise hb hs) (by simp) h
  · intro cur inc merged h
    exact merge_sources_versions h

theorem C8_append_only_invariants_witness :
    (∃ suf, sourcesOf (.obj (setKey (ensureKey cfX verK (.arr [])) verK
        (.arr ([] ++ [.obj (setKey infX hashK
          (.str (sha256_bytes (dumps (.obj infX)))))])))) =
      sourcesOf (.obj cfX) ++ suf) := by
  have hm := @merge_diff_case cfX infX [] (by decide) (by decide)
  simp only [scanHash] at hm
  exact (C8_append_only_invariants.2 _ _ _ hm).1


theorem goodVal_elim {d : JVal} (h : goodVal d = true) :
    ∃ fs, d = .obj fs ∧
      (getKey? fs provK = none ∨ ∃ pf, getKey? fs provK = some (.obj pf) ∧
        (getKey? pf srcK = none ∨ ∃ l, getKey? pf srcK = some (.arr l))) ∧
      (getKey? fs verK = none ∨ ∃ vs, getKey? fs verK = some (.arr vs) ∧
        ∀ w ∈ vs, isObj w = true) := by
  rcases d with _ | b | n | s | xs | fs
  all_goals try exact Bool.noConfusion h
  rw [goodVal, Bool.and_eq_true] at h
  obtain ⟨hA, hB⟩ := h
  refine ⟨fs, rfl, ?_, ?_⟩
  · rcases hp : getKey? fs provK with _ | v
    · exact Or.inl rfl
    · rcases v with _ | b1 | n1 | s1 | x1 | pf <;> simp only [hp] at hA
      all_goals try exact Bool.noConfusion hA
      rcases hq : getKey? pf srcK with _ | w
      · exact Or.inr ⟨pf, rfl, Or.inl hq⟩
      · rcases w with _ | b2 | n2 | s2 | l | f2 <;> simp only [hq] at hA
        all_goals try exact Bool.noConfusion hA
        exact Or.inr ⟨pf, rfl, Or.inr ⟨l, hq⟩⟩
  · rcases hv : getKey? fs verK with _ | v
    · exact Or.inl rfl
    · rcases v with _ | b1 | n1 | s1 | vs | f1 <;> simp only [hv] at hB
      all_goals try exact Bool.noConfusion hB
      refine Or.inr ⟨vs, rfl, ?_⟩
      intro w hw
      exact List.all_eq_true.mp hB w hw

theorem getKey?_ensureKey_self (fs : List (List Nat × JVal)) (k : List Nat) (d : JVal) :
    getKey? (ensureKey fs k d) k = some ((getKey? fs k).getD d) := by
  unfold ensureKey hasKey
  rcases h : getKey? fs k with _ | v
  · simp only [Option.isSome_none, Bool.false_eq_true, if_false, Option.getD_none]
    rw [getKey?_append_right [(k, d)] (by simp [hasKey, h])]
    simp [getKey?]
  · simp only [Option.isSome_some, if_true, Option.getD_some]
    exact h

theorem nodeGood_elim {v : JVal} (h : nodeGood v = true) :
    nodeShaped v = true ∧ ∃ fs, v = .obj fs ∧
      (getKey? fs verK = none ∨ ∃ vs, getKey? fs verK = some (.arr vs) ∧
        ∀ w ∈ vs, isObj w = true) := by
  rcases v with _ | b | n | s | xs | fs
  · exact Bool.noConfusion h
  · exact Bool.noConfusion h
  · exact Bool.noConfusion h
  · exact Bool.noConfusion h
  · exact Bool.noConfusion h
  rw [nodeGood, Bool.and_eq_true] at h
  obtain ⟨hs, hv⟩ := h
  refine ⟨hs, fs, rfl, ?_⟩
  rcases hk : getKey? fs verK with _ | w
  · exact Or.inl rfl
  · rcases w with _ | b1 | n1 | s1 | vs | f1 <;> simp only [hk] at hv
    all_goals try exact Bool.noConfusion hv
    refine Or.inr ⟨vs, rfl, ?_⟩
    intro w hw
    exact List.all_eq_true.mp hv w hw

theorem nodeGood_intro {fs : List (List Nat × JVal)}
    (hs : nodeShaped (.obj fs) = true)
    (hv : getKey? fs verK = none ∨ ∃ vs, getKey? fs verK = some (.arr vs) ∧
      ∀ w ∈ vs, isObj w = true) :
    nodeGood (.obj fs) = true := by
  rw [nodeGood, Bool.and_eq_true]
  refine ⟨hs, ?_⟩
  rcases hv with hv | ⟨vs, hv, hobjs⟩
  · simp only [hv]
  · simp only [hv]
    exact List.all_eq_true.mpr hobjs

theorem scanHash_total {vs : List JVal} (hobj : ∀ w ∈ vs, isObj w = true)
    (h : List Nat) : ∃ b, scanHash vs h = .ok b := by
  induction vs with
  | nil => exact ⟨false, rfl⟩
  | cons w rest ih =>
    have hw := hobj w (by simp)
    rcases w with _ | b | n | s | xs | fs
    all_goals try exact Bool.noConfusion hw
    by_cases hp : pyEq ((getKey? fs hashK).getD .null) (.str h) = true
    · refine ⟨true, ?_⟩
      simp only [scanHash]
      rw [if_pos hp]
    · obtain ⟨b, hb⟩ := ih (fun w hw => hobj w (by simp [hw]))
      refine ⟨b, ?_⟩
      simp only [scanHash]
      rw [if_neg hp]
      exact hb

theorem normalise_good_ok {d : JVal} {source : List Nat} {env : Option (List Nat)}
    {clock : Clock} (h : goodVal d = true) :
    ∃ node, normalise_node d source env clock = .ok node ∧ nodeGood node = true := by
  obtain ⟨fs, hd, hprov, hver⟩ := goodVal_elim h
  subst hd
  obtain ⟨pf1, hp1, hsrc1⟩ :
      ∃ pf1, getKey? (ensureKey fs provK (.obj [])) provK = some (.obj pf1) ∧
        (getKey? pf1 srcK = none ∨ ∃ l, getKey? pf1 srcK = some (.arr l)) := by
    rcases hprov with hp | ⟨pf, hp, hq⟩
    · exact ⟨[], by rw [getKey?_ensureKey_self, hp]; rfl, Or.inl rfl⟩
    · exact ⟨pf, by rw [getKey?_ensureKey_self, hp]; rfl, hq⟩
  obtain ⟨l1, hl1⟩ :
      ∃ l1, getKey? (ensureKey pf1 srcK (.arr [])) srcK = some (.arr l1) := by
    rcases hsrc1 with hq | ⟨l, hq⟩
    · exact ⟨[], by rw [getKey?_ensureKey_self, hq]; rfl⟩
    · exact ⟨l, by rw [getKey?_ensureKey_self, hq]; rfl⟩
  have hnorm : normalise_node (.obj fs) source env clock =
      .ok (.obj (setKey (ensureKey fs provK (.obj [])) provK
        (.obj (setKey (ensureKey pf1 srcK (.arr [])) srcK
          (.arr (l1 ++ [provEntry source (commitOf env) (timestampOf clock)])))))) := by
    simp only [normalise_node, hp1, hl1]
  refine ⟨_, hnorm, ?_⟩
  apply nodeGood_intro
  · exact nodeShaped_of_parts (getKey?_setKey_self _ _ _) (getKey?_setKey_self _ _ _)
      (by simp)
  · have hk : getKey? (setKey (ensureKey fs provK (.obj [])) provK
        (.obj (setKey (ensureKey pf1 srcK (.arr [])) srcK
          (.arr (l1 ++ [provEntry source (commitOf env) (timestampOf clock)]))))) verK
        = getKey? fs verK := by
      rw [getKey?_setKey_ne _ _ provK_ne_verK, getKey?_ensureKey_ne _ provK_ne_verK]
    rw [hk]
    exact hver

theorem validate_cases (node : JVal) (src : List Nat)
    (hobj : isObj node = true) :
    validate_node node src = .ok () ∨
      ∃ m, validate_node node src = .error (.schema m) := by
  rcases node with _ | b | n | s | xs | fs
  · exact Bool.noConfusion hobj
  · exact Bool.noConfusion hobj
  · exact Bool.noConfusion hobj
  · exact Bool.noConfusion hobj
  · exact Bool.noConfusion hobj
  rcases hid : getKey? fs idK with _ | v
  · exact Or.inr ⟨schemaMsg src (bs "missing 'id'"),
      by simp only [validate_node, ensure_schema_minimum, hid]⟩
  · rcases v with _ | b1 | n1 | s1 | x1 | f1
    · exact Or.inr ⟨schemaMsg src (bs "id must be a string"),
        by simp only [validate_node, ensure_schema_minimum, hid]⟩
    · exact Or.inr ⟨schemaMsg src (bs "id must be a string"),
        by simp only [validate_node, ensure_schema_minimum, hid]⟩
    · exact Or.inr ⟨schemaMsg src (bs "id must be a string"),
        by simp only [validate_node, ensure_schema_minimum, hid]⟩
    · by_cases hm : matchId s1 = true
      · exact Or.inl (by simp [validate_node, ensure_schema_minimum, hid, hm])
      · exact Or.inr ⟨schemaMsg src (bs "id does not match pattern"),
          by simp [validate_node, ensure_schema_minimum, hid, hm]⟩
    · exact Or.inr ⟨schemaMsg src (bs "id must be a string"),
        by simp only [validate_node, ensure_schema_minimum, hid]⟩
    · exact Or.inr ⟨schemaMsg src (bs "id must be a string"),
        by simp only [validate_node, ensure_schema_minimum, hid]⟩

theorem merge_good_ok {cur inc : JVal} (hcur : nodeGood cur = true)
    (hinc : nodeGood inc = true) :
    ∃ merged, append_only_merge cur inc = .ok merged ∧ nodeGood merged = true := by
  obtain ⟨hcs, cf, hc, hcv⟩ := nodeGood_elim hcur
  obtain ⟨his, inf, hi, -⟩ := nodeGood_elim hinc
  subst hc
  subst hi
  obtain ⟨pf, l, hp, hq, hl⟩ := nodeShaped_elim hcs
  obtain ⟨ipf, il, hip, hiq, -⟩ := nodeShaped_elim his
  by_cases he : nodes_equal cf inf = true
  · have hincs : incomingSources inf = .ok il := by
      simp only [incomingSources, hip, hiq, iterElems]
    have hm := merge_equal_case hp hq he hincs
    refine ⟨_, hm, ?_⟩
    apply nodeGood_intro
    · exact nodeShaped_of_parts (getKey?_setKey_self _ _ _) (getKey?_setKey_self _ _ _)
        (by simp [hl])
    · rw [getKey?_setKey_ne _ _ provK_ne_verK]
      exact hcv
  · have hne : nodes_equal cf inf = false := by simpa using he
    obtain ⟨vs, hev, hobjs⟩ :
        ∃ vs, getKey? (ensureKey cf verK (.arr [])) verK = some (.arr vs) ∧
          ∀ w ∈ vs, isObj w = true := by
      rcases hcv with hv | ⟨vs, hv, hobjs⟩
      · exact ⟨[], by rw [getKey?_ensureKey_self, hv]; rfl, by simp⟩
      · exact ⟨vs, by rw [getKey?_ensureKey_self, hv]; rfl, hobjs⟩
    obtain ⟨b, hsc⟩ := scanHash_total hobjs (sha256_bytes (dumps (.obj inf)))
    have hm := merge_diff_case hne hev
    cases b with
    | true =>
      simp only [hsc] at hm
      refine ⟨_, hm, nodeGood_intro (merge_shaped hm hcs) (Or.inr ⟨vs, hev, hobjs⟩)⟩
    | false =>
      simp only [hsc] at hm
      refine ⟨_, hm, nodeGood_intro (merge_shaped hm hcs)
        (Or.inr ⟨_, getKey?_setKey_self _ _ _, ?_⟩)⟩
      intro w hw
      rcases List.mem_append.mp hw with hw | hw
      · exact hobjs w hw
      · simp at hw
        subst hw
        rfl

theorem ingestValue_good {env : Option (List Nat)} {clock : Clock}
    {compiled : List (JVal × JVal)} {data : JVal} {source : List Nat}
    (hgood : goodVal data = true)
    (hP : ∀ kv ∈ compiled, nodeGood kv.2 = true) :
    (∀ compiled', ingestValue env clock compiled data source = .ok compiled' →
       ∀ kv ∈ compiled', nodeGood kv.2 = true) ∧
    (∀ e, ingestValue env clock compiled data source = .error e →
       ∃ m, e = .schema m) := by
  obtain ⟨fs, hd, -, -⟩ := goodVal_elim hgood
  subst hd
  have hg : pyGet (.obj fs) idK = .ok ((getKey? fs idK).getD .null) := rfl
  by_cases ht : truthy ((getKey? fs idK).getD .null) = true
  · obtain ⟨node, hn, hng⟩ := @normalise_good_ok (.obj fs) source env clock hgood
    have hobjn : isObj node = true := by
      obtain ⟨-, nf, hnf, -⟩ := nodeGood_elim hng
      rw [hnf]
      rfl
    rcases validate_cases node source hobjn with hv | ⟨m, hv⟩
    · rcases hm : mapGet? compiled ((getKey? fs idK).getD .null) with _ | cur
      · have hok : ingestValue env clock compiled (.obj fs) source =
            .ok (compiled ++ [((getKey? fs idK).getD .null, node)]) := by
          simp only [ingestValue, hg]
          rw [if_neg (by simp [ht])]
          simp only [hn, hv, hm]
        constructor
        · intro compiled' h
          rw [hok] at h
          cases h
          intro kv hkv
          rcases List.mem_append.mp hkv with hkv | hkv
          · exact hP kv hkv
          · simp at hkv
            subst hkv
            exact hng
        · intro e h
          rw [hok] at h
          cases h
      · obtain ⟨k', hk'⟩ := mapGet?_mem hm
        obtain ⟨merged, hmg, hgm⟩ := merge_good_ok (hP (k', cur) hk') hng
        have hok : ingestValue env clock compiled (.obj fs) source =
            .ok (mapSet compiled ((getKey? fs idK).getD .null) merged) := by
          simp only [ingestValue, hg]
          rw [if_neg (by simp [ht])]
          simp only [hn, hv, hm, hmg]
        constructor
        · intro compiled' h
          rw [hok] at h
          cases h
          intro kv hkv
          rcases mapSet_mem kv hkv with h2 | h2
          · rw [h2]
            exact hgm
          · exact hP kv h2
        · intro e h
          rw [hok] at h
          cases h
    · have herr : ingestValue env clock compiled (.obj fs) source =
          .error (.schema m) := by
        simp only [ingestValue, hg]
        rw [if_neg (by simp [ht])]
        simp only [hn, hv]
      constructor
      · intro compiled' h
        rw [herr] at h
        cases h
      · intro e h
        rw [herr] at h
        cases h
        exact ⟨m, rfl⟩
  · have hok : ingestValue env clock compiled (.obj fs) source = .ok compiled := by
      simp only [ingestValue, hg]
      rw [if_pos (by simpa using ht)]
    constructor
    · intro compiled' h
      rw [hok] at h
      cases h
      exact hP
    · intro e h
      rw [hok] at h
      cases h

theorem ingestNodeFile_good {env : Option (List Nat)} {clock : Clock}
    {compiled : List (JVal × JVal)} {pf : List Nat × Option JVal}
    (hQ : ∀ d, pf.2 = some d → truthy d = true → goodVal d = true)
    (hP : ∀ kv ∈ compiled, nodeGood kv.2 = true) :
    (∀ compiled', ingestNodeFile env clock compiled pf = .ok compiled' →
       ∀ kv ∈ compiled', nodeGood kv.2 = true) ∧
    (∀ e, ingestNodeFile env clock compiled pf = .error e → ∃ m, e = .schema m) := by
  obtain ⟨path, content⟩ := pf
  rcases content with _ | d
  · constructor
    · intro compiled' h
      rw [show ingestNodeFile env clock compiled (path, none) = .ok compiled
        from rfl] at h
      cases h
      exact hP
    · intro e h
      rw [show ingestNodeFile env clock compiled (path, none) = .ok compiled
        from rfl] at h
      cases h
  · by_cases ht : truthy d = true
    · have hgood := hQ d rfl ht
      have hred : ingestNodeFile env clock compiled (path, some d) =
          ingestValue env clock compiled d path := by
        simp only [ingestNodeFile]
        rw [if_neg (by simp [ht])]
      constructor
      · intro compiled' h
        rw [hred] at h
        exact (ingestValue_good hgood hP).1 compiled' h
      · intro e h
        rw [hred] at h
        exact (ingestValue_good hgood hP).2 e h
    · have hred : ingestNodeFile env clock compiled (path, some d) = .ok compiled := by
        simp only [ingestNodeFile]
        rw [if_pos (by simpa using ht)]
      constructor
      · intro compiled' h
        rw [hred] at h
        cases h
        exact hP
      · intro e h
        rw [hred] at h
        cases h

theorem ingestLedger_good {loads : List Nat → Option JVal}
    {env : Option (List Nat)} {clock : Clock}
    {compiled : List (JVal × JVal)} {lg : List Nat × Option (List Nat)}
    (hQ : ∀ text, lg.2 = some text →
       ∀ b ∈ extract_json_blocks loads text, goodVal b = true)
    (hP : ∀ kv ∈ compiled, nodeGood kv.2 = true) :
    (∀ compiled', ingestLedger loads env clock compiled lg = .ok compiled' →
       ∀ kv ∈ compiled', nodeGood kv.2 = true) ∧
    (∀ e, ingestLedger loads env clock compiled lg = .error e →
       ∃ m, e = .schema m) := by
  obtain ⟨path, content⟩ := lg
  rcases content with _ | text
  · constructor
    · intro compiled' h
      rw [show ingestLedger loads env clock compiled (path, none) = .ok compiled
        from rfl] at h
      cases h
      exact hP
    · intro e h
      rw [show ingestLedger loads env clock compiled (path, none) = .ok compiled
        from rfl] at h
      cases h
  · have hfold := foldlM_except
      (fun acc block => ingestValue env clock acc block path)
      (fun m => ∀ kv ∈ m, nodeGood kv.2 = true) (fun b => goodVal b = true)
      (fun b a b' hQa hb hf => (ingestValue_good hQa hb).1 b' hf)
      (fun b a e hQa hb hf => (ingestValue_good hQa hb).2 e hf)
      (extract_json_blocks loads text) compiled (hQ text rfl) hP
    constructor
    · intro compiled' h
      rw [show ingestLedger loads env clock compiled (path, some text) =
        (extract_json_blocks loads text).foldlM
          (fun acc block => ingestValue env clock acc block path) compiled
        from rfl] at h
      exact hfold.1 compiled' h
    · intro e h
      rw [show ingestLedger loads env clock compiled (path, some text) =
        (extract_json_blocks loads text).foldlM
          (fun acc block => ingestValue env clock acc block path) compiled
        from rfl] at h
      exact hfold.2 e h

theorem goodTree_elim {loads : List Nat → Option JVal} {t : SrcTree}
    (h : goodTree loads t = true) :
    (∀ pf ∈ t.nodeFiles, ∀ d, pf.2 = some d → truthy d = true →
       goodVal d = true) ∧
    (∀ lg ∈ t.ledgers, ∀ text, lg.2 = some text →
       ∀ b ∈ extract_json_blocks loads text, goodVal b = true) := by
  rw [goodTree, Bool.and_eq_true] at h
  obtain ⟨h1, h2⟩ := h
  constructor
  · intro pf hpf d hd ht
    have hx := List.all_eq_true.mp h1 pf hpf
    simp only [hd] at hx
    rw [Bool.or_eq_true] at hx
    rcases hx with hT | hG
    · rw [Bool.not_eq_true'] at hT
      rw [ht] at hT
      cases hT
    · exact hG
  · intro lg hlg text htext b hb
    have hx := List.all_eq_true.mp h2 lg hlg
    simp only [htext] at hx
    exact List.all_eq_true.mp hx b hb

theorem foldlM_total {β γ : Type} (f : β → γ → Except Err β) (Q : γ → Prop)
    (step : ∀ b a, Q a → ∃ b', f b a = .ok b') :
    ∀ (l : List γ) (b : β), (∀ a ∈ l, Q a) → ∃ res, l.foldlM f b = .ok res := by
  intro l
  induction l with
  | nil => intro b _; exact ⟨b, rfl⟩
  | cons a l ih =>
    intro b hQ
    obtain ⟨b', hb'⟩ := step b a (hQ a (by simp))
    obtain ⟨res, hres⟩ := ih b' (fun x hx => hQ x (by simp [hx]))
    refine ⟨res, ?_⟩
    rw [List.foldlM_cons, hb', except_bind_ok]
    exact hres

theorem versionsCount_ok {nodes : List (JVal × JVal)}
    (hP : ∀ kv ∈ nodes, nodeGood kv.2 = true) :
    ∃ n, versionsCount nodes = .ok n := by
  have step : ∀ (b : Nat) (kv : JVal × JVal), nodeGood kv.2 = true →
      ∃ b', (match pyGetD kv.2 verK (.arr []) with
        | .error e => (.error e : Except Err Nat)
        | .ok v =>
          match pyLen v with
          | .error e => .error e
          | .ok n => .ok (b + n)) = .ok b' := by
    intro b kv hkv
    obtain ⟨-, fs2, hfs2, hv2⟩ := nodeGood_elim hkv
    have hget : pyGetD kv.2 verK (.arr []) =
        .ok ((getKey? fs2 verK).getD (.arr [])) := by
      rw [hfs2]
      rfl
    rcases hv2 with hv | ⟨vs, hv, -⟩
    · exact ⟨b, by simp [hget, hv, pyLen]⟩
    · exact ⟨b + vs.length, by simp [hget, hv, pyLen]⟩
  unfold versionsCount
  exact foldlM_total _ (fun kv => nodeGood kv.2 = true)
    (fun b a ha => step b a ha) nodes 0 hP

theorem collect_nodes_good {loads : List Nat → Option JVal}
    {env : Option (List Nat)} {clock : Clock} {t : SrcTree}
    (hg : goodTree loads t = true) :
    (∀ res, collect_nodes loads env clock t = .ok res →
       ∀ kv ∈ res.nodes, nodeGood kv.2 = true) ∧
    (∀ e, collect_nodes loads env clock t = .error e → ∃ m, e = .schema m) := by
  obtain ⟨hQ1, hQ2⟩ := goodTree_elim hg
  have hQ1' : ∀ pf ∈ sortByKey Prod.fst t.nodeFiles,
      (∀ d, pf.2 = some d → truthy d = true → goodVal d = true) := by
    intro pf hpf
    exact hQ1 pf ((sortByKey_perm Prod.fst t.nodeFiles).mem_iff.mp hpf)
  have h1 := foldlM_except (ingestNodeFile env clock)
    (fun m => ∀ kv ∈ m, nodeGood kv.2 = true)
    (fun pf => ∀ d, pf.2 = some d → truthy d = true → goodVal d = true)
    (fun b a b' hQa hb hf => (ingestNodeFile_good hQa hb).1 b' hf)
    (fun b a e hQa hb hf => (ingestNodeFile_good hQa hb).2 e hf)
    (sortByKey Prod.fst t.nodeFiles) [] hQ1' (by simp)
  constructor
  · intro res h
    simp only [collect_nodes] at h
    rcases hn1 : (sortByKey Prod.fst t.nodeFiles).foldlM (ingestNodeFile env clock) []
      with e | nodes1
    · simp only [hn1] at h
      cases h
    · simp only [hn1] at h
      have hg1 : ∀ kv ∈ nodes1, nodeGood kv.2 = true := h1.1 nodes1 hn1
      have h2 := foldlM_except (ingestLedger loads env clock)
        (fun m => ∀ kv ∈ m, nodeGood kv.2 = true)
        (fun lg => ∀ text, lg.2 = some text →
           ∀ b ∈ extract_json_blocks loads text, goodVal b = true)
        (fun b a b' hQa hb hf => (ingestLedger_good hQa hb).1 b' hf)
        (fun b a e hQa hb hf => (ingestLedger_good hQa hb).2 e hf)
        t.ledgers nodes1 hQ2 hg1
      rcases hn2 : t.ledgers.foldlM (ingestLedger loads env clock) nodes1
        with e | nodes2
      · simp only [hn2] at h
        cases h
      · simp only [hn2] at h
        cases h
        exact h2.1 nodes2 hn2
  · intro e h
    simp only [collect_nodes] at h
    rcases hn1 : (sortByKey Prod.fst t.nodeFiles).foldlM (ingestNodeFile env clock) []
      with e1 | nodes1
    · simp only [hn1] at h
      cases h
      exact h1.2 e hn1
    · simp only [hn1] at h
      have hg1 : ∀ kv ∈ nodes1, nodeGood kv.2 = true := h1.1 nodes1 hn1
      have h2 := foldlM_except (ingestLedger loads env clock)
        (fun m => ∀ kv ∈ m, nodeGood kv.2 = true)
        (fun lg => ∀ text, lg.2 = some text →
           ∀ b ∈ extract_json_blocks loads text, goodVal b = true)
        (fun b a b' hQa hb hf => (ingestLedger_good hQa hb).1 b' hf)
        (fun b a e hQa hb hf => (ingestLedger_good hQa hb).2 e hf)
        t.ledgers nodes1 hQ2 hg1
      rcases hn2 : t.ledgers.foldlM (ingestLedger loads env clock) nodes1
        with e2 | nodes2
      · simp only [hn2] at h
        cases h
        exact h2.2 e hn2
      · simp only [hn2] at h
        cases h

theorem main_run_good_schema {loads : List Nat → Option JVal}
    {env : Option (List Nat)} {clock : Clock} {t : SrcTree} {e : Err}
    (hg : goodTree loads t = true)
    (h : main_run loads env clock t = .error e) : ∃ m, e = .schema m := by
  simp only [main_run] at h
  rcases hc : collect_nodes loads env clock t with e1 | res
  · simp only [hc] at h
    cases h
    exact (collect_nodes_good hg).2 e hc
  · simp only [hc] at h
    obtain ⟨n, hn⟩ := versionsCount_ok ((collect_nodes_good hg).1 res hc)
    simp only [hn] at h
    cases h

/-- C4: a file whose JSON fails to parse (a `none` payload) contributes
nothing: the node-file step, the ledger step and the card step all return
their accumulator unchanged; and on a source tree whose truthy node
payloads and ledger blocks are well-shaped dicts, the only error a full
run can raise is a schema-validation failure.  (Amended from the original
claim: a truthy non-dict payload aborts the run with a type error, not a
schema failure, so schema validation is the only abort condition only on
well-shaped trees; see the counterexample.) -/
theorem C4_parse_skip_schema_fatal :
    (∀ env clock compiled p, ingestNodeFile env clock compiled (p, none) = .ok compiled) ∧
    (∀ loads env clock compiled p,
       ingestLedger loads env clock compiled (p, none) = .ok compiled) ∧
    (∀ cs p, cardStep cs (p, none) = cs) ∧
    (∀ loads env clock t e, goodTree loads t = true →
       main_run loads env clock t = .error e → ∃ m, e = .schema m) :=
  ⟨fun _ _ _ _ => rfl, fun _ _ _ _ _ => rfl, fun _ _ => rfl,
   fun _ _ _ _ _ hg h => main_run_good_schema hg h⟩

/-- A truthy non-dict node payload (a JSON array) aborts the run with a
type error — which is not a schema-validation failure — refuting the
original claim that schema failures are the only abort condition. -/
theorem C4_counterexample_type_error :
    main_run loadsNone none clockW treeArrFile = .error .typeErr ∧
    ∀ m, (Err.typeErr : Err) ≠ .schema m :=
  ⟨by decide, fun _ h => Err.noConfusion h⟩

theorem C4_parse_skip_schema_fatal_witness :
    goodTree loadsNone treeBadId = true ∧
    (∃ m, (Err.schema (schemaMsg (bs "a.json") (bs "id does not match pattern")) : Err)
       = .schema m) :=
  ⟨by decide, C4_parse_skip_schema_fatal.2.2.2 loadsNone none clockW treeBadId
    (.schema (schemaMsg (bs "a.json") (bs "id does not match pattern")))
    (by decide) (by decide)⟩

/-- Model validation: `pyEq` ignores dict insertion order. -/
theorem pyEq_order_insensitive :
    pyEq (.obj [(bs "a", .num 1), (bs "b", .null)])
         (.obj [(bs "b", .null), (bs "a", .num 1)]) = true ∧
    pyEq (.obj [(bs "a", .num 1)]) (.obj [(bs "a", .num 2)]) = false := by
  decide

/-- Model validation: the two serializers on a small value. -/
theorem dumps_examples :
    dumps (.obj [(bs "b", .num 1), (bs "a", .arr [.num 1, .num 2])]) =
      bs "\x7b\"a\": [1, 2], \"b\": 1\x7d" ∧
    dumpIndent2 (.obj [(bs "b", .num 1), (bs "a", .arr [.num 1, .num 2])]) =
      bs "\x7b\n  \"b\": 1,\n  \"a\": [\n    1,\n    2\n  ]\n\x7d" := by
  decide

/-- FIPS 180-2 test vectors, truncated to 16 hex characters as the
compiler does. -/
theorem sha256_vectors :
    sha256_bytes (bs "abc") = bs "ba7816bf8f01cfea" ∧
    sha256_bytes [] = bs "e3b0c44298fc1c14" ∧
    sha256_bytes (bs "abcdbcdecdefdefgefghfghighijhijkijkljklmklmnlmnomnopnopq") =
      bs "248d6a61d20638b8" := by
  decide

/-- Model validation: the timestamp formatter with and without a
microseconds field. -/
theorem timestampOf_examples :
    timestampOf ⟨2026, 10, 12, 3, 4, 56, 789⟩ = bs "2026-10-12T03:04:56.000789Z" ∧
    timestampOf ⟨2026, 1, 2, 3, 4, 5, 0⟩ = bs "2026-01-02T03:04:05Z" := by
  decide
